import Mathlib

/-!
# Verification of the aparavi-aql-studio translation–validation–repair core

This file gives a shallow embedding, in Lean 4, of the core pipeline of the
`aparavi-aql-studio` repository and proves (or refutes) the frozen claims
about it.  Queries are modelled as `List Char` (Python `str`), the external
collaborators (LLM provider, remote validator, HTTP transport) are modelled as
explicit oracle functions, and every embedded function is executable.

Source files embedded here:
  * `modules/utils/aql_validator.py`   — `AQLValidator.suggest_fixes` and the
    `UNSUPPORTED_PATTERNS` rule table (regexes specialised to the concrete
    patterns appearing in the table);
  * `modules/core/routes.py`           — the validation/repair loop of the
    POST `query` route (lines 466–577);
  * `modules/llm/base.py`              — `LLMProvider.fix_invalid_query`
    (rule-based branch; the model-based fallback is an oracle parameter);
  * `modules/core/api.py`              — `AparaviAPI.validate_query`
    (transport-error handling) and the LIMIT-injection step of
    `AparaviAPI.execute_query`;
  * `modules/utils/query_preprocessor.py` — `preprocess_query` and
    `DATE_VARIABLES`;
  * `modules/db/database.py`           — `cache_query_result` and
    `get_cached_query_result`.

Character classes (`\s`, `\w`, `str.upper`, `str.strip`) are modelled over
ASCII, which covers the AQL query alphabet the rules operate on.
-/

set_option autoImplicit false

namespace AQLStudio

/-- Queries and other Python strings are modelled as lists of characters. -/
abbrev Str := List Char

/-! ## Character classes and elementary string operations -/

/-- Python whitespace (`\s`, `str.strip`, `str.isspace`), ASCII fragment. -/
def isSpaceC (c : Char) : Bool :=
  c = ' ' || c = '\t' || c = '\n' || c = '\r' || c = '\x0b' || c = '\x0c'

/-- Python word character (`\w`), ASCII fragment: `[A-Za-z0-9_]`. -/
def isWordC (c : Char) : Bool :=
  ('A' ≤ c && c ≤ 'Z') || ('a' ≤ c && c ≤ 'z') || ('0' ≤ c && c ≤ '9') || c = '_'

/-- ASCII upper-casing of one character (Python `str.upper`, ASCII fragment). -/
def charUp (c : Char) : Char :=
  if 'a' ≤ c && c ≤ 'z' then Char.ofNat (c.toNat - 32) else c

/-- Python `str.upper`, ASCII fragment. -/
def upperS (s : Str) : Str := s.map charUp

/-- Python `str.strip()` with no argument: drop whitespace at both ends. -/
def stripS (s : Str) : Str :=
  (s.dropWhile isSpaceC).reverse.dropWhile isSpaceC |>.reverse

/-- Python truthiness of `s.strip()`: `true` iff some non-space char remains. -/
def isBlank (s : Str) : Bool := s.all isSpaceC

/-- Python `pat in s` (substring containment) for a non-empty pattern. -/
def containsSub (pat : Str) : Str → Bool
  | [] => pat.isPrefixOf []
  | c :: s => pat.isPrefixOf (c :: s) || containsSub pat s

/-- The scan of Python `s.replace(pat, rep)` (leftmost-first, non-overlapping
global replacement), written with a skip counter so that the recursion is
structural on the string: after emitting a replacement the scanner skips the
remaining `pat.length - 1` matched characters.  The `!pat.isEmpty` conjunct
only rules out the empty pattern, which no caller uses. -/
def replaceAllGo (pat rep : Str) : Nat → Str → Str
  | _ + 1, [] => []
  | k + 1, _ :: s => replaceAllGo pat rep k s
  | 0, [] => []
  | 0, c :: s =>
    if pat.isPrefixOf (c :: s) && !pat.isEmpty then
      rep ++ replaceAllGo pat rep (pat.length - 1) s
    else
      c :: replaceAllGo pat rep 0 s

/-- Python `s.replace(pat, rep)` for a non-empty `pat`. -/
def replaceAll (pat rep : Str) (s : Str) : Str := replaceAllGo pat rep 0 s

/-! ## Translation cache (`modules/db/database.py`, lines 384–410)

The backing store's query-result cache has been disabled: the store and the
lookup are both stubs.  `CacheState` is the state such a store would carry. -/

/-- State carried by the credential store's query-result cache. -/
def CacheState := List (String × String)

/-- `CredentialStore.cache_query_result` (database.py lines 384–397): the body
is `return True` — nothing is recorded.  Modelled as returning the unchanged
state next to the Python return value. -/
def cache_query_result (st : CacheState) (_query : String) (_result : String)
    (_expiry_minutes : Nat) : Bool × CacheState :=
  (true, st)

/-- `CredentialStore.get_cached_query_result` (database.py lines 399–410): the
body is `return None`. -/
def get_cached_query_result (_st : CacheState) (_query : String) :
    Option String :=
  none

/-- The cache-consultation step of `OpenAILLM.translate_to_aql`
(openai.py lines 80–86): a truthy cached result is returned directly,
otherwise the fresh translation `fresh` is produced. -/
def translate_cache_step (st : CacheState) (cache_key : String)
    (fresh : String) : String :=
  match get_cached_query_result st cache_key with
  | some r => r
  | none => fresh

/-! ## Result-size limiting (`modules/core/api.py`, lines 157–177)

The LIMIT-injection step of `AparaviAPI.execute_query`. -/

/-- Index (from the front) of the last element of `ss` whose `strip()` is
truthy, i.e. the last non-blank statement — the Python backwards scan
`for i in range(len(statements) - 1, -1, -1)`. -/
def lastNonBlankIdx (ss : List Str) : Option Nat :=
  match ss.reverse.findIdx? (fun s => !isBlank s) with
  | some j => some (ss.length - 1 - j)
  | none => none

/-- Replace the element at index `i` by `f` of it (Python
`statements[i] += " LIMIT 25000"` followed by re-joining). -/
def modifyIdx (f : Str → Str) : Nat → List Str → List Str
  | _, [] => []
  | 0, s :: ss => f s :: ss
  | n + 1, s :: ss => s :: modifyIdx f n ss

/-- The clause appended by `execute_query`. -/
def limitClause : Str := (" LIMIT 25000").toList

/-- LIMIT-injection step of `AparaviAPI.execute_query` (api.py lines
157–177): if the upper-cased query does not contain `LIMIT`, append
`" LIMIT 25000"` — to the last non-blank `;`-separated statement when the
query contains a semicolon, to the whole query otherwise. -/
def addLimit (q : Str) : Str :=
  if containsSub ("LIMIT").toList (upperS q) then q
  else if q.contains ';' then
    let statements := q.splitOn ';'
    match lastNonBlankIdx statements with
    | some i => List.intercalate [';'] (modifyIdx (· ++ limitClause) i statements)
    | none => q
  else q ++ limitClause

/-! ## Matchers for the regexes of `UNSUPPORTED_PATTERNS`
(`modules/utils/aql_validator.py`, lines 20–31)

The rule table uses four concrete regex shapes, all of which are matched
here by direct deterministic scanners.  Determinism is faithful: in each
shape every greedy sub-scan (`\s*`, `\s+`, `\w+`) is followed by a character
that its class cannot contain, so the backtracking regex engine agrees with
the maximal-munch scan. -/

/-- Case-insensitive literal keyword match: consume `kw` (given upper-case)
from the front of `s`, returning the remainder. -/
def stripKw : Str → Str → Option Str
  | [], s => some s
  | _ :: _, [] => none
  | k :: kw, c :: s => if charUp c = k then stripKw kw s else none

/-- The `\s*\(\s*(\w+)\s*\)` tail of the date-function patterns: returns the
captured `\w+` group and the remainder after the closing parenthesis. -/
def matchParenTail (s : Str) : Option (Str × Str) :=
  match s.dropWhile isSpaceC with
  | '(' :: s2 =>
    let s3 := s2.dropWhile isSpaceC
    let w := s3.takeWhile isWordC
    let s4 := s3.dropWhile isWordC
    if w.isEmpty then none
    else
      match s4.dropWhile isSpaceC with
      | ')' :: rest => some (w, rest)
      | _ => none
  | _ => none

/-- Anchored match of `KW\s*\(\s*(\w+)\s*\)` (case-insensitive) at the front
of `s`: returns the capture and the remainder. -/
def tryMatch (kw : Str) (s : Str) : Option (Str × Str) :=
  (stripKw kw s).bind matchParenTail

/-- `re.search`-style existence of a match of `KW\s*\(\s*(\w+)\s*\)` at any
position of `s`. -/
def hasMatch (kw : Str) : Str → Bool
  | [] => false
  | c :: s => (tryMatch kw (c :: s)).isSome || hasMatch kw s

/-- The replacement text `SUBSTRING(\1, d1, d2)` instantiated at capture
`w` (all three table replacements have single-digit offsets/lengths). -/
def replText (d1 d2 : Char) (w : Str) : Str :=
  ("SUBSTRING(").toList ++ w ++ [',', ' ', d1, ',', ' ', d2, ')']

/-- The combined `re.findall`-count / `re.sub` scan for a date-function
pattern: leftmost, non-overlapping; returns the substituted string and the
number of matches (Python computes the count with `re.findall` and then
substitutes with `re.sub`; both operations perform this same scan).  The
skip counter keeps the recursion structural: after a match the scanner
skips the remaining matched characters (the match spans
`(c :: s).length - rest.length` characters). -/
def subCountGo (kw : Str) (d1 d2 : Char) : Nat → Str → Str × Nat
  | _ + 1, [] => ([], 0)
  | k + 1, _ :: s => subCountGo kw d1 d2 k s
  | 0, [] => ([], 0)
  | 0, c :: s =>
    match tryMatch kw (c :: s) with
    | some (w, rest) =>
      let p := subCountGo kw d1 d2 ((c :: s).length - rest.length - 1) s
      (replText d1 d2 w ++ p.1, p.2 + 1)
    | none =>
      let p := subCountGo kw d1 d2 0 s
      (c :: p.1, p.2)

/-- The `re.findall`/`re.sub` scan, from the start of the string. -/
def subCount (kw : Str) (d1 d2 : Char) (s : Str) : Str × Nat :=
  subCountGo kw d1 d2 0 s

/-- `(subCount).1`: the global substitution `re.sub` for a date-function
pattern. -/
def subAll (kw : Str) (d1 d2 : Char) (s : Str) : Str := (subCount kw d1 d2 s).1

/-- `(subCount).2`: the match count `len(re.findall(...))` for a
date-function pattern. -/
def countM (kw : Str) (s : Str) : Nat := (subCount kw '0' '0' s).2

/-- Anchored match of `KW\s*\(` (the `DATE_ADD`/`DATE_SUB` patterns). -/
def tryMatchOpen (kw : Str) (s : Str) : Bool :=
  match stripKw kw s with
  | some r =>
    match r.dropWhile isSpaceC with
    | '(' :: _ => true
    | _ => false
  | none => false

/-- Anchored match of a bare keyword (the `INTERVAL` pattern). -/
def tryMatchLit (kw : Str) (s : Str) : Bool := (stripKw kw s).isSome

/-- Anchored match of `K1\s*\(\s*K2` (the `COUNT\s*\(\s*DISTINCT` pattern). -/
def tryMatchOpenKw (k1 k2 : Str) (s : Str) : Bool :=
  match stripKw k1 s with
  | some r =>
    match r.dropWhile isSpaceC with
    | '(' :: r2 => (stripKw k2 (r2.dropWhile isSpaceC)).isSome
    | _ => false
  | none => false

/-! ## The rule table (`AQLValidator.UNSUPPORTED_PATTERNS`, lines 20–31) -/

/-- One entry of `UNSUPPORTED_PATTERNS`.  `kwParen kw d1 d2` is the pattern
`KW\s*\(\s*(\w+)\s*\)` with replacement `SUBSTRING(\1, d1, d2)`; the other
three shapes carry a `None` replacement. -/
inductive PatKind where
  | kwParen (kw : Str) (d1 d2 : Char)
  | kwOpen (kw : Str)
  | lit (kw : Str)
  | kwOpenKw (k1 k2 : Str)
deriving DecidableEq, Repr

/-- Does this entry carry a (non-null) replacement?  In the table, exactly
the `kwParen` entries do. -/
def PatKind.hasReplacement : PatKind → Bool
  | .kwParen _ _ _ => true
  | _ => false

/-- Anchored match of a table pattern at the front of `s`. -/
def patMatchAt : PatKind → Str → Bool
  | .kwParen kw _ _, s => (tryMatch kw s).isSome
  | .kwOpen kw, s => tryMatchOpen kw s
  | .lit kw, s => tryMatchLit kw s
  | .kwOpenKw k1 k2, s => tryMatchOpenKw k1 k2 s

/-- `re.search`-style existence of a match of a table pattern in `s`. -/
def patHasMatch (p : PatKind) : Str → Bool
  | [] => patMatchAt p []
  | c :: s => patMatchAt p (c :: s) || patHasMatch p s

/-- The regex source text of a table pattern, as it appears in the Python
change messages. -/
def patName : PatKind → String
  | .kwParen kw _ _ => String.mk kw ++ "\\s*\\(\\s*(\\w+)\\s*\\)"
  | .kwOpen kw => String.mk kw ++ "\\s*\\("
  | .lit kw => String.mk kw
  | .kwOpenKw k1 k2 => String.mk k1 ++ "\\s*\\(\\s*" ++ String.mk k2

/-- The replacement-template text of a `kwParen` entry, as it appears in the
Python change messages. -/
def replName : PatKind → String
  | .kwParen _ d1 d2 =>
    "SUBSTRING(\\1, " ++ String.mk [d1] ++ ", " ++ String.mk [d2] ++ ")"
  | _ => ""

/-- `AQLValidator.UNSUPPORTED_PATTERNS` (aql_validator.py lines 20–31). -/
def UNSUPPORTED_PATTERNS : List PatKind :=
  [ .kwParen ("YEAR").toList '1' '4',
    .kwParen ("MONTH").toList '6' '2',
    .kwParen ("DAY").toList '9' '2',
    .kwOpen ("DATE_ADD").toList,
    .kwOpen ("DATE_SUB").toList,
    .lit ("INTERVAL").toList,
    .kwOpenKw ("COUNT").toList ("DISTINCT").toList ]

/-! ## The `GROUP_BY_PATTERN` search
(`GROUP\s+BY\s+(.*?)(?:ORDER\s+BY|HAVING|$)`, with `IGNORECASE | DOTALL`)

The lazy group is resolved deterministically: both `\s+` runs are followed
by letters, so maximal munch agrees with the engine, and the overall match
can never fail after the head has matched (the `$` alternative always
eventually applies), so the engine never backtracks into the head. -/

/-- Anchored match of `ORDER\s+BY` (case-insensitive), returning the number
of characters consumed. -/
def matchOrderBy (s : Str) : Option Nat :=
  match stripKw ("ORDER").toList s with
  | none => none
  | some r1 =>
    match r1 with
    | c :: t =>
      if isSpaceC c then
        match stripKw ("BY").toList (t.dropWhile isSpaceC) with
        | some r3 => some (s.length - r3.length)
        | none => none
      else none
    | [] => none

/-- Anchored match of `HAVING` (case-insensitive), returning the number of
characters consumed. -/
def matchHaving (s : Str) : Option Nat :=
  (stripKw ("HAVING").toList s).map (fun r => s.length - r.length)

/-- Anchored match of the terminator alternation `(?:ORDER\s+BY|HAVING|$)`,
in the engine's alternation order, returning the consumed length. -/
def termMatch (s : Str) : Option Nat :=
  match matchOrderBy s with
  | some n => some n
  | none =>
    match matchHaving s with
    | some n => some n
    | none => if s.isEmpty then some 0 else none

/-- The lazy group `(.*?)` before the terminator: shortest split point at
which the terminator matches.  Returns the group text and the terminator's
consumed length.  (With `DOTALL`, `.` matches every character.) -/
def lazySplit : Str → Option (Str × Nat)
  | [] => (termMatch []).map (fun n => (([] : Str), n))
  | c :: t =>
    match termMatch (c :: t) with
    | some n => some ([], n)
    | none => (lazySplit t).map (fun p => (c :: p.1, p.2))

/-- Anchored match of the head `GROUP\s+BY\s+` (case-insensitive), returning
the remainder after the second whitespace run. -/
def matchGroupByHead (s : Str) : Option Str :=
  match stripKw ("GROUP").toList s with
  | none => none
  | some r1 =>
    match r1 with
    | c :: t =>
      if isSpaceC c then
        match stripKw ("BY").toList (t.dropWhile isSpaceC) with
        | none => none
        | some r3 =>
          match r3 with
          | c2 :: t2 => if isSpaceC c2 then some (t2.dropWhile isSpaceC) else none
          | [] => none
      else none
    | [] => none

/-- `re.search(GROUP_BY_PATTERN, s, re.IGNORECASE | re.DOTALL)`: leftmost
match; returns `(group(0), group(1))`. -/
def searchGroupBy : Str → Option (Str × Str)
  | [] => none
  | c :: t =>
    match matchGroupByHead (c :: t) with
    | some rest =>
      match lazySplit rest with
      | some (cols, termLen) =>
        let headLen := (c :: t).length - rest.length
        some ((c :: t).take (headLen + cols.length + termLen), cols)
      | none => none
    | none => searchGroupBy t

/-! ## `AQLValidator.suggest_fixes` (aql_validator.py lines 108–163)

The rule-based rewriter.  Its `error_message` parameter is unused by the
Python body and is therefore not a parameter here.  The second component is
the list of change descriptions; Python renders it as
`"; ".join(changes)`, or the fixed string `"No automatic fixes could be
applied"` when the list is empty (see `suggest_fixes_msg`). -/

/-- The `params` sub-dictionary of the validator's structured error detail:
`token` and `expecting`, as read by `suggest_fixes` (lines 150–157) and by
`fix_invalid_query`. -/
structure ErrParams where
  token : String
  expecting : List String
deriving DecidableEq, Repr

/-- Structured error details (`error_details`): `none` models a falsy dict
or one without a `params` key. -/
abbrev ErrDet := Option ErrParams

/-- ASCII lower-casing of one character (Python `str.lower`). -/
def charLow (c : Char) : Char :=
  if 'A' ≤ c && c ≤ 'Z' then Char.ofNat (c.toNat + 32) else c

/-- Python `str.lower`, ASCII fragment. -/
def lowerS (s : Str) : Str := s.map charLow

/-- Step 1 of `suggest_fixes` (lines 125–133), over an arbitrary rule
table: fold the automatic fixes for the entries that carry a replacement
over the running query; entries with a null replacement are skipped by the
`if replacement:` guard (line 127). -/
def fixesStep1T (table : List PatKind) (query : Str) : Str × List String :=
  table.foldl
    (fun acc p =>
      match p with
      | .kwParen kw d1 d2 =>
        let n := countM kw acc.1
        if 0 < n then
          (subAll kw d1 d2 acc.1,
           acc.2 ++ ["Replaced " ++ toString n ++ " instances of " ++
             patName p ++ " with " ++ replName p])
        else acc
      | _ => acc)
    (query, [])

/-- Step 1 of `suggest_fixes` over `UNSUPPORTED_PATTERNS`. -/
def fixesStep1 (query : Str) : Str × List String :=
  fixesStep1T UNSUPPORTED_PATTERNS query

/-- Step 2 of `suggest_fixes` (lines 135–147), over an arbitrary rule
table: the GROUP BY special case.  `group_by_section`/`group_by_columns`
are computed once, before the loop; each firing rewrites the (original)
columns and replaces every occurrence of the section text in the running
query; null-replacement entries are again skipped by the guard of
line 144. -/
def fixesStep2T (table : List PatKind) (fixed1 : Str) (changes1 : List String) :
    Str × List String :=
  match searchGroupBy fixed1 with
  | some (sect, colsRaw) =>
    let cols := stripS colsRaw
    table.foldl
      (fun acc p =>
        match p with
        | .kwParen kw d1 d2 =>
          if patHasMatch p cols then
            (replaceAll sect (("GROUP BY ").toList ++ subAll kw d1 d2 cols) acc.1,
             acc.2 ++ ["Updated GROUP BY clause with proper date extraction"])
          else acc
        | _ => acc)
      (fixed1, changes1)
  | none => (fixed1, changes1)

/-- Step 2 of `suggest_fixes` over `UNSUPPORTED_PATTERNS`. -/
def fixesStep2 (fixed1 : Str) (changes1 : List String) : Str × List String :=
  fixesStep2T UNSUPPORTED_PATTERNS fixed1 changes1

/-- Step 3 of `suggest_fixes` (lines 149–157): the purely diagnostic change
derived from the structured error details.  (The Python message wraps the
token in single quotes; the quote characters are left out of the rendered
text here, which no claim inspects.) -/
def fixesStep3 (error_details : ErrDet) (changes2 : List String) : List String :=
  match error_details with
  | some params =>
    if params.token ≠ "" && !params.expecting.isEmpty &&
        params.expecting.any
          (fun e => containsSub ("column").toList (lowerS e.toList)) then
      changes2 ++ ["The token " ++ params.token ++
        " is not recognized. Expected column types: " ++
        String.intercalate ", " params.expecting]
    else changes2
  | none => changes2

/-- `AQLValidator.suggest_fixes` over an arbitrary rule table. -/
def suggestFixesT (table : List PatKind) (query : Str) (error_details : ErrDet) :
    Str × List String :=
  let s1 := fixesStep1T table query
  let s2 := fixesStep2T table s1.1 s1.2
  let changes := fixesStep3 error_details s2.2
  if changes.isEmpty then (query, []) else (s2.1, changes)

/-- `AQLValidator.suggest_fixes`: returns the fixed query and the list of
change descriptions (empty list ↔ Python's "No automatic fixes could be
applied" return, which hands back the original query). -/
def suggestFixes (query : Str) (error_details : ErrDet) : Str × List String :=
  suggestFixesT UNSUPPORTED_PATTERNS query error_details

/-- The explanation string actually returned by the Python `suggest_fixes`. -/
def suggest_fixes_msg (changes : List String) : String :=
  if changes.isEmpty then "No automatic fixes could be applied"
  else String.intercalate "; " changes

/-! ## Named fold steps and index sets for the rule rewriter

Infrastructure for the idempotence proof (claim C5): the loop bodies of
`suggest_fixes` steps 1 and 2 as named functions, the set of date-function
keywords and replacement digits, and the character set of the replacement
text outside the capture. -/

/-- The three date-function keywords of the `kwParen` rules. -/
def KWS : List Str := [("YEAR").toList, ("MONTH").toList, ("DAY").toList]

/-- The digit arguments appearing in the `SUBSTRING` replacements. -/
def DIGITS : List Char := ['1', '4', '6', '2', '9']

/-- The loop body of step 1 of `suggest_fixes` (lines 125–133), named. -/
def fix1Step (acc : Str × List String) (p : PatKind) : Str × List String :=
  match p with
  | .kwParen kw d1 d2 =>
    let n := countM kw acc.1
    if 0 < n then
      (subAll kw d1 d2 acc.1,
       acc.2 ++ ["Replaced " ++ toString n ++ " instances of " ++
         patName p ++ " with " ++ replName p])
    else acc
  | _ => acc

/-- The query component of one step-1 loop iteration. -/
def fix1F (x : Str) (p : PatKind) : Str :=
  match p with
  | .kwParen kw d1 d2 => if 0 < countM kw x then subAll kw d1 d2 x else x
  | _ => x

/-- The loop body of step 2 of `suggest_fixes` (lines 141–147), named;
`sect` and `cols` are the group-by section and its stripped columns. -/
def fix2Step (sect cols : Str) (acc : Str × List String) (p : PatKind) :
    Str × List String :=
  match p with
  | .kwParen kw d1 d2 =>
    if patHasMatch p cols then
      (replaceAll sect (("GROUP BY ").toList ++ subAll kw d1 d2 cols) acc.1,
       acc.2 ++ ["Updated GROUP BY clause with proper date extraction"])
    else acc
  | _ => acc

/-- The characters that can appear in a `SUBSTRING` replacement outside the
capture: none of them can start a date-keyword match. -/
def REPLCHARS : List Char := ("SUBSTRING(").toList ++ ([',', ' ', ')'] ++ DIGITS)

/-! ## Validation outcomes and `AparaviAPI.validate_query`
(`modules/core/api.py`, lines 317–389) -/

/-- The triple returned by `AparaviAPI.validate_query`:
`(is_valid, error_message, error_details)`. -/
structure Outcome where
  valid : Bool
  msg : Option String
  det : ErrDet
deriving DecidableEq, Repr

/-- The fields of the validation endpoint's JSON response that
`validate_query` reads: the HTTP status code, whether
`response_data.get("status") == "OK"`, the optional `message`, and the
structured `error` detail. -/
structure RespData where
  status_code : Nat
  statusOK : Bool
  message : Option String
  err : ErrDet
deriving DecidableEq, Repr

/-- `AparaviAPI.validate_query` (api.py lines 317–389), as a function of
what the HTTP layer did: `Except.error e` models any exception raised by
the request/JSON machinery (timeout, connection failure, malformed
response), `Except.ok` a parsed response.  The `except` clause (lines
385–389) converts every exception into an ordinary invalid triple whose
details are the empty (falsy) dict.  On the success path Python returns the
whole response object as the third component; the route never reads it
there, and it is modelled as `none`. -/
def validate_query (transport : Except String RespData) : Outcome :=
  match transport with
  | .ok resp =>
    if resp.status_code = 200 && resp.statusOK then
      { valid := true, msg := none, det := none }
    else
      { valid := false,
        msg := some (resp.message.getD "Unknown validation error"),
        det := resp.err }
  | .error e =>
    { valid := false,
      msg := some ("Error during query validation: " ++ e),
      det := none }

/-! ## The repair loop of the POST `query` route
(`modules/core/routes.py`, lines 466–577)

The loop is parameterised by its two collaborators: `fix` (the provider's
`fix_invalid_query`, called as
`fix_invalid_query(question, sanitized_query, feedback)`) and `validate`
(`api_client.validate_query`).  Both receive the 1-based retry count as an
extra index so that the oracles may answer differently on different calls.
Logging, the `progress` integer and the user-facing message formatting of
`_format_validation_error` are UI concerns not modelled here; no claim
depends on them. -/

/-- One element of `previous_attempts` (routes.py lines 522–527). -/
structure Attempt where
  attempt : Nat
  query : String
  explanation : String
  err : Option String
deriving DecidableEq, Repr

/-- The feedback dictionary built each iteration (routes.py lines 509–514). -/
structure Feedback where
  original_query : String
  error : Option String
  error_details : ErrDet
  previous_attempts : List Attempt
deriving DecidableEq, Repr

/-- The dictionary returned by a provider's `fix_invalid_query`: only the
`query` and `explanation` fields are read by the route. -/
structure FixResult where
  query : String
  explanation : String
deriving DecidableEq, Repr

/-- The mutable state of the route's validation/repair phase: the local
Python variables `is_valid`, `error_message`, `error_details`,
`previous_attempts`, `result['query']`/`result['validation_fixed']`, and the
`validation_status` dictionary fields that are not pure UI. -/
structure SessSt where
  is_valid : Bool
  error_message : Option String
  error_details : ErrDet
  currentQuery : String
  attemptsShown : Nat
  statusStr : String
  previous_attempts : List Attempt
  result_query : String
  validation_fixed : Bool
deriving DecidableEq, Repr

/-- The body of one iteration of the retry loop (routes.py lines 497–561),
at 1-based retry count `rc`.  Returns the updated state and `true` iff the
loop continues to the next iteration (Python reaches the end of the `while`
body without `break`). -/
def loopBody (fix : Nat → String → String → Feedback → FixResult)
    (validate : Nat → String → Outcome)
    (question sanitized : String) (rc : Nat) (st : SessSt) : SessSt × Bool :=
  let st := { st with attemptsShown := min (1 + rc) 5, statusStr := "fixing" }
  let feedback : Feedback :=
    { original_query := sanitized, error := st.error_message,
      error_details := st.error_details,
      previous_attempts := st.previous_attempts }
  let fixed_result := fix rc question sanitized feedback
  let fixed_query := fixed_result.query
  let st := { st with
    previous_attempts := st.previous_attempts ++
      [{ attempt := rc, query := fixed_query,
         explanation := fixed_result.explanation, err := st.error_message }] }
  if fixed_query ≠ "" && fixed_query ≠ sanitized then
    let st := { st with currentQuery := fixed_query }
    let out := validate rc fixed_query
    let st := { st with
      is_valid := out.valid, error_message := out.msg,
      error_details := out.det,
      statusStr := if out.valid then "valid" else "invalid" }
    if out.valid then
      ({ st with result_query := fixed_query, validation_fixed := true }, false)
    else
      (st, true)
  else
    (st, false)

/-- The `while not is_valid and retry_count < max_retries` loop.  `fuel`
is `max_retries - retry_count`; `rc` is the current retry count. -/
def runLoop (fix : Nat → String → String → Feedback → FixResult)
    (validate : Nat → String → Outcome) (question sanitized : String) :
    Nat → Nat → SessSt → SessSt
  | 0, _, st => st
  | fuel + 1, rc, st =>
    if st.is_valid then st
    else
      if (loopBody fix validate question sanitized (rc + 1) st).2 then
        runLoop fix validate question sanitized fuel (rc + 1)
          (loopBody fix validate question sanitized (rc + 1) st).1
      else (loopBody fix validate question sanitized (rc + 1) st).1

/-- The post-loop bookkeeping (routes.py lines 563–570): a still-invalid
query marks the validation status `failed`. -/
def finalizeSess (st : SessSt) : SessSt :=
  if !st.is_valid then { st with statusStr := "failed" } else st

/-- Maximum number of retry attempts (routes.py lines 479 and 489). -/
def maxAttempts : Nat := 5

/-- The whole validation/repair phase of the route, starting from the first
validation outcome `out0` of the freshly translated query `sanitized`
(routes.py lines 466–577; the initial `validation_status` of lines
474–484 is the starting state). -/
def runSession (fix : Nat → String → String → Feedback → FixResult)
    (validate : Nat → String → Outcome)
    (question sanitized : String) (out0 : Outcome) : SessSt :=
  let st0 : SessSt :=
    { is_valid := out0.valid, error_message := out0.msg,
      error_details := out0.det, currentQuery := sanitized,
      attemptsShown := 1,
      statusStr := if out0.valid then "valid" else "invalid",
      previous_attempts := [], result_query := sanitized,
      validation_fixed := false }
  let st1 :=
    if !out0.valid then
      runLoop fix validate question sanitized maxAttempts 0 st0
    else st0
  finalizeSess st1

/-- An attempt whose candidate the route actually validated: non-empty and
different from the original query (the `if` of routes.py line 532). -/
def progressAttempt (sanitized : String) (a : Attempt) : Bool :=
  a.query ≠ "" && a.query ≠ sanitized

/-- The candidate the session's `currentQuery` field tracks: the `query` of
the last recorded attempt that the route actually validated (non-empty and
different from the original query), or the original query when no such
attempt exists. -/
def lastValidatedCandidate (sanitized : String) (as : List Attempt) : String :=
  match as.reverse.find? (progressAttempt sanitized) with
  | some a => a.query
  | none => sanitized

/-! ## `LLMProvider.fix_invalid_query` (`modules/llm/base.py`, lines 117–296)

The base provider (used unchanged by the OpenAI/Ollama providers) first
tries the rule-based rewriter on the query it was handed and returns its
output whenever the rewriter changed anything; only otherwise does it fall
back to the model-based repair (lines 160–296).  The fallback — an LLM call
in overriding providers, a bundle of error-message heuristics in the base
class — is the model-based collaborator and is supplied as an oracle. -/

/-- `true` iff the rule-based branch of `fix_invalid_query` fires: the
rewriter changed the query (base.py line 150). -/
def ruleBranchFired (invalid_query : String) (error_details : ErrDet) : Bool :=
  (suggestFixes invalid_query.toList error_details).1 ≠ invalid_query.toList

/-- `LLMProvider.fix_invalid_query`: rule-based fix first (base.py lines
140–156), model-based repair (`fallback`) otherwise.  `suggest_fixes` is
called with the feedback's error message and details; the error message is
unused by its body. -/
def fix_invalid_query
    (fallback : String → String → Option String → ErrDet → List Attempt → FixResult)
    (original_question invalid_query : String) (feedback : Feedback) :
    FixResult :=
  let error_message := feedback.error
  let error_details := feedback.error_details
  let s := suggestFixes invalid_query.toList error_details
  if s.1 ≠ invalid_query.toList then
    { query := String.mk s.1, explanation := suggest_fixes_msg s.2 }
  else
    fallback original_question invalid_query error_message error_details
      feedback.previous_attempts

/-! ## The route pipeline around the loop, with exception flow
(`modules/core/routes.py`, lines 405–619)

The whole POST handler body runs inside one `try`; an exception raised by
any step inside it aborts the pipeline and reaches the handler's `except`
(line 605), which renders an error page — the "hard failure" path.  The
pipeline below models the dataflow from the translate call to the repair
loop.  `translate` is the result of `current_provider.translate_to_aql`
(`Except.error` = the call raised), and `transport` tells, per validation
call, what the HTTP layer did; `validate_query` above turns that into the
route-visible triple. -/

/-- The translation dictionary produced by a provider. -/
structure TransResult where
  query : String
  explanation : String
  understanding : String
deriving DecidableEq, Repr

/-- The route's translate–validate–repair dataflow with exception
propagation: `Except.error` = an exception reached the handler's top-level
`except` clause. -/
def route_pipeline (translate : Except String TransResult)
    (transport : Nat → String → Except String RespData)
    (fix : Nat → String → String → Feedback → FixResult)
    (question : String) : Except String SessSt := do
  let tr ← translate
  let sanitized := tr.query
  let out0 := validate_query (transport 0 sanitized)
  pure (runSession fix (fun rc q => validate_query (transport rc q))
    question sanitized out0)

/-! ## Gregorian dates

`preprocess_query` renders `datetime.now() - timedelta(days=n)` with
`strftime('%Y-%m-%d')`.  Days are counted from 0000-03-01 with the standard
era-based civil-calendar conversion; both directions are executable. -/

/-- Day number of the civil date `y-m-d` (valid for `y ≥ 1`). -/
def daysFromCivil (y m d : Nat) : Nat :=
  let y' := if m ≤ 2 then y - 1 else y
  let era := y' / 400
  let yoe := y' % 400
  let mp := (m + 9) % 12
  let doy := (153 * mp + 2) / 5 + (d - 1)
  let doe := yoe * 365 + yoe / 4 - yoe / 100 + doy
  era * 146097 + doe

/-- Civil date `(y, m, d)` of a day number. -/
def civilFromDays (z : Nat) : Nat × Nat × Nat :=
  let era := z / 146097
  let doe := z % 146097
  let yoe := (doe - doe / 1460 + doe / 36524 - doe / 146096) / 365
  let y := yoe + era * 400
  let doy := doe - (365 * yoe + yoe / 4 - yoe / 100)
  let mp := (5 * doy + 2) / 153
  let d := doy - (153 * mp + 2) / 5 + 1
  let m := if mp < 10 then mp + 3 else mp - 9
  (if m ≤ 2 then y + 1 else y, m, d)

/-- Left-pad the decimal rendering of `n` with `'0'` to width `k`. -/
def padNum (k n : Nat) : Str :=
  let s := (Nat.repr n).toList
  List.replicate (k - s.length) '0' ++ s

/-- `strftime('%Y-%m-%d')` of a day number. -/
def dateStr (z : Nat) : Str :=
  let c := civilFromDays z
  padNum 4 c.1 ++ '-' :: padNum 2 c.2.1 ++ '-' :: padNum 2 c.2.2

/-! ## `preprocess_query` (`modules/utils/query_preprocessor.py`, 70–112) -/

/-- A bracketed template-variable name: `'{{' + s + '}}'`. -/
def dv (s : String) : Str := '{' :: '{' :: s.toList ++ ['}', '}']

/-- `DATE_VARIABLES` (query_preprocessor.py lines 20–31): template variable
↦ `timedelta` day offset. -/
def DATE_VARIABLES : List (Str × Nat) :=
  [ (dv "TODAY", 0),
    (dv "DATE_MINUS_30_DAYS", 30),
    (dv "DATE_MINUS_90_DAYS", 90),
    (dv "DATE_MINUS_6_MONTHS", 182),
    (dv "DATE_MINUS_1_YEAR", 365),
    (dv "DATE_MINUS_2_YEARS", 730),
    (dv "DATE_MINUS_3_YEARS", 1095),
    (dv "DATE_MINUS_5_YEARS", 1825),
    (dv "DATE_MINUS_7_YEARS", 2555),
    (dv "DATE_MINUS_10_YEARS", 3650) ]

/-- `AQL_DATE_EXPRESSIONS` (query_preprocessor.py line 68): loaded from
`data/dates.aql`, a file that is not present in the repository, so
`_load_aql_date_expressions` takes its missing-file path (lines 45–47) and
the table is empty. -/
def AQL_DATE_EXPRESSIONS : List (Str × Str) := []

/-- Scan for the closing `}}` of a `{{.*?}}` match: returns the (lazy,
shortest) inner text and the remainder.  Without `DOTALL`, `.` does not
match a newline, so a newline before the first `}}` makes the match fail. -/
def scanToClose : Str → Option (Str × Str)
  | [] => none
  | c :: rest =>
    if c = '}' && rest.head? = some '}' then some ([], rest.tail)
    else if c = '\n' then none
    else (scanToClose rest).map (fun p => (c :: p.1, p.2))

/-- The scan of `re.findall(r'\x7b\x7b.*?\x7d\x7d', s)`
(query_preprocessor.py line 108): all non-overlapping bracketed tokens still
present after substitution; a position where no match starts is retried at
the next character.  The skip counter keeps the recursion structural: after
a match the scanner skips the remaining matched characters. -/
def findBracedGo : Nat → Str → List Str
  | _ + 1, [] => []
  | k + 1, _ :: s => findBracedGo k s
  | 0, [] => []
  | 0, c :: rest =>
    if c = '{' && rest.head? = some '{' then
      match scanToClose rest.tail with
      | some (inner, rest') =>
        ('{' :: '{' :: inner ++ ['}', '}']) ::
          findBracedGo ((c :: rest).length - rest'.length - 1) rest
      | none => findBracedGo 0 rest
    else findBracedGo 0 rest

/-- All bracketed `\x7b\x7b.*?\x7d\x7d` tokens of `s`. -/
def findBraced (s : Str) : List Str := findBracedGo 0 s

/-- `preprocess_query` (query_preprocessor.py lines 70–112), with the
current date supplied as a day number.  Returns the processed query together
with the list of bracketed tokens still unreplaced — those are only logged
as warnings (line 110); the function always returns the query, it has no
error path.  The `remaining_vars` list is computed once, before the
fallback replacements, exactly as in Python (line 92). -/
def preprocess_query (today : Nat) (query_text : Str) : Str × List Str :=
  if query_text.isEmpty then (query_text, [])
  else
    let p1 := AQL_DATE_EXPRESSIONS.foldl
      (fun acc ve => if containsSub ve.1 acc then replaceAll ve.1 ve.2 acc else acc)
      query_text
    let remaining := DATE_VARIABLES.filter (fun ve => containsSub ve.1 p1)
    let p2 := remaining.foldl
      (fun acc ve => replaceAll ve.1 (dateStr (today - ve.2)) acc) p1
    (p2, findBraced p2)

/-- The day number of 2025-01-10, the `now` of the date-substitution
example. -/
def now20250110 : Nat := daysFromCivil 2025 1 10

/-- Shape of a date-template variable name: `'{'`, `'{'`, then a
brace-free non-empty tail (used to reason about occurrences). -/
def varShapeOK (u : Str) : Bool :=
  match u with
  | c1 :: c2 :: c :: t =>
    c1 = '{' && c2 = '{' && !(c = '{') && !((c :: t).contains '{')
  | _ => false

/-! ## Concrete collaborator oracles used by counterexamples and witnesses -/

/-- A repair oracle that answers the fixed candidate `Q2` on every call. -/
def cexFix1 : Nat → String → String → Feedback → FixResult :=
  fun _ _ _ _ => { query := "Q2", explanation := "e" }

/-- A validator oracle that rejects every query. -/
def cexValBad : Nat → String → Outcome :=
  fun _ _ => { valid := false, msg := some "bad", det := none }

/-- A repair oracle that answers a fresh candidate `Q<rc>` on each call. -/
def cexFix2 : Nat → String → String → Feedback → FixResult :=
  fun rc _ _ _ => { query := "Q" ++ toString rc, explanation := "e" }

/-- A validator oracle that accepts exactly the query `Q5`. -/
def cexVal2 : Nat → String → Outcome :=
  fun _ q => if q = "Q5" then { valid := true, msg := none, det := none }
    else { valid := false, msg := some "bad", det := none }

/-- A repair oracle that answers `Q2` on the first call and the empty string
afterwards. -/
def cexFix3 : Nat → String → String → Feedback → FixResult :=
  fun rc _ _ _ =>
    if rc = 1 then { query := "Q2", explanation := "e" }
    else { query := "", explanation := "e" }

/-- A model-based-repair oracle that hands the invalid query back unchanged
(the shape of the base provider's fallback when none of its heuristics
apply). -/
def c4Fallback : String → String → Option String → ErrDet → List Attempt →
    FixResult :=
  fun _ iq _ _ _ =>
    { query := iq
      explanation := "Could not automatically fix the query. Please check the original error message." }

/-- The provider repair call of the route instantiated with the base
`fix_invalid_query` over `c4Fallback`. -/
def c4Fix : Nat → String → String → Feedback → FixResult :=
  fun _ question iq fb => fix_invalid_query c4Fallback question iq fb

/-- A repair oracle that echoes back the (invalid) query it was handed. -/
def echoFix (expl : String) : Nat → String → String → Feedback → FixResult :=
  fun _ _ q _ => { query := q, explanation := expl }

/-- A transport oracle on which every validation HTTP call raises. -/
def transportErr : Nat → String → Except String RespData :=
  fun _ _ => Except.error "timed out"

/-- A concrete invalid first validation outcome. -/
def cexOut0 : Outcome := { valid := false, msg := some "m0", det := none }

/-- A concrete invalid session state with no recorded attempt, original
query `Q0`. -/
def stInvalid : SessSt :=
  { is_valid := false, error_message := some "m0", error_details := none,
    currentQuery := "Q0", attemptsShown := 1, statusStr := "invalid",
    previous_attempts := [], result_query := "Q0", validation_fixed := false }

/-! # Theorems

Helper lemmas about the embedded functions, followed by one theorem per
claim (with a witness or counterexample where the claim's status requires
one). -/

/-! ## Lemmas on the repair loop -/

/-- Every iteration of the repair loop records exactly one attempt, in every
branch (the attempt is appended before the stall check, routes.py line
522). -/
theorem loopBody_attempts (fix : Nat → String → String → Feedback → FixResult)
    (validate : Nat → String → Outcome) (question sanitized : String)
    (rc : Nat) (st : SessSt) :
    ((loopBody fix validate question sanitized rc st).1.previous_attempts).length =
      st.previous_attempts.length + 1 := by
  unfold loopBody
  dsimp only
  split
  · split <;> simp
  · simp

/-- The loop can record at most `fuel` further attempts. -/
theorem runLoop_attempts_le (fix : Nat → String → String → Feedback → FixResult)
    (validate : Nat → String → Outcome) (question sanitized : String) :
    ∀ (fuel rc : Nat) (st : SessSt),
      ((runLoop fix validate question sanitized fuel rc st).previous_attempts).length ≤
        st.previous_attempts.length + fuel := by
  intro fuel
  induction fuel with
  | zero => intro rc st; simp [runLoop]
  | succ n ih =>
    intro rc st
    rw [runLoop]
    split
    · omega
    · split
      · have h1 := ih (rc + 1) (loopBody fix validate question sanitized (rc + 1) st).1
        have h2 := loopBody_attempts fix validate question sanitized (rc + 1) st
        omega
      · have h2 := loopBody_attempts fix validate question sanitized (rc + 1) st
        omega

/-- Post-loop bookkeeping does not change the recorded attempts. -/
theorem finalize_attempts (st : SessSt) :
    (finalizeSess st).previous_attempts = st.previous_attempts := by
  unfold finalizeSess
  split <;> rfl

/-- Post-loop bookkeeping does not change `currentQuery`. -/
theorem finalize_currentQuery (st : SessSt) :
    (finalizeSess st).currentQuery = st.currentQuery := by
  unfold finalizeSess
  split <;> rfl

/-- A session that is still invalid after the loop is marked `failed`. -/
theorem finalize_status_failed (st : SessSt) (h : st.is_valid = false) :
    (finalizeSess st).statusStr = "failed" := by
  unfold finalizeSess
  rw [if_pos (by simp [h])]

/-- Appending an attempt updates `lastValidatedCandidate` exactly when the
attempt was a validated (progress) attempt. -/
theorem lvc_append (sanitized : String) (as : List Attempt) (a : Attempt) :
    lastValidatedCandidate sanitized (as ++ [a]) =
      if progressAttempt sanitized a then a.query
      else lastValidatedCandidate sanitized as := by
  unfold lastValidatedCandidate
  rw [List.reverse_append]
  simp only [List.reverse_cons, List.reverse_nil, List.nil_append, List.cons_append,
    List.find?_cons]
  by_cases hb : progressAttempt sanitized a = true
  · rw [hb]
    simp
  · rw [Bool.eq_false_iff.mpr hb]
    simp

/-- One loop iteration preserves the `currentQuery`-tracking invariant. -/
theorem loopBody_invariant (fix : Nat → String → String → Feedback → FixResult)
    (validate : Nat → String → Outcome) (question sanitized : String)
    (rc : Nat) (st : SessSt)
    (hst : st.currentQuery = lastValidatedCandidate sanitized st.previous_attempts) :
    (loopBody fix validate question sanitized rc st).1.currentQuery =
      lastValidatedCandidate sanitized
        (loopBody fix validate question sanitized rc st).1.previous_attempts := by
  unfold loopBody
  dsimp only
  split
  · rename_i h
    split
    · simp only
      rw [lvc_append]
      simp only [progressAttempt]
      rw [if_pos h]
    · simp only
      rw [lvc_append]
      simp only [progressAttempt]
      rw [if_pos h]
  · rename_i h
    simp only
    rw [lvc_append]
    simp only [progressAttempt]
    rw [if_neg h]
    exact hst

/-- The whole loop preserves the `currentQuery`-tracking invariant. -/
theorem runLoop_invariant (fix : Nat → String → String → Feedback → FixResult)
    (validate : Nat → String → Outcome) (question sanitized : String) :
    ∀ (fuel rc : Nat) (st : SessSt),
      st.currentQuery = lastValidatedCandidate sanitized st.previous_attempts →
      (runLoop fix validate question sanitized fuel rc st).currentQuery =
        lastValidatedCandidate sanitized
          (runLoop fix validate question sanitized fuel rc st).previous_attempts := by
  intro fuel
  induction fuel with
  | zero => intro rc st h; simpa [runLoop] using h
  | succ n ih =>
    intro rc st h
    rw [runLoop]
    split
    · exact h
    · split
      · exact ih (rc + 1) _ (loopBody_invariant fix validate question sanitized (rc + 1) st h)
      · exact loopBody_invariant fix validate question sanitized (rc + 1) st h

/-- An iteration whose repair candidate is the original query or empty ends
the loop: the attempt is still recorded, nothing else changes. -/
theorem loopBody_stall (fix : Nat → String → String → Feedback → FixResult)
    (validate : Nat → String → Outcome) (question sanitized : String)
    (rc : Nat) (st : SessSt)
    (h : (fix rc question sanitized
        { original_query := sanitized, error := st.error_message,
          error_details := st.error_details,
          previous_attempts := st.previous_attempts }).query = sanitized ∨
      (fix rc question sanitized
        { original_query := sanitized, error := st.error_message,
          error_details := st.error_details,
          previous_attempts := st.previous_attempts }).query = "") :
    (loopBody fix validate question sanitized rc st).2 = false ∧
    (loopBody fix validate question sanitized rc st).1.is_valid = st.is_valid ∧
    (loopBody fix validate question sanitized rc st).1.currentQuery =
      st.currentQuery ∧
    ((loopBody fix validate question sanitized rc st).1.previous_attempts).length =
      st.previous_attempts.length + 1 := by
  unfold loopBody
  dsimp only
  rcases h with h | h
  · rw [if_neg (by simp [h])]
    exact ⟨rfl, rfl, rfl, by simp⟩
  · rw [if_neg (by simp [h])]
    exact ⟨rfl, rfl, rfl, by simp⟩

/-! ## Claim C1 — stall detection -/

/-- **C1, counterexample.**  The claim says a repair candidate textually
identical to `currentQuery` makes the session fail immediately — in
particular a Translator answering the same query on every repair call ends
the session FAILED with exactly one recorded attempt.  Against a repair
oracle that answers the constant candidate `Q2` on every call (so from the
second call on the candidate is textually identical to `currentQuery`) and
an always-rejecting validator, the session records five attempts — the full
`maxAttempts` — before failing, not one. -/
theorem claim_C1_counterexample :
    (runSession cexFix1 cexValBad "q" "Q0" cexOut0).previous_attempts.map
        (fun a => a.query) = ["Q2", "Q2", "Q2", "Q2", "Q2"] ∧
    (runSession cexFix1 cexValBad "q" "Q0" cexOut0).statusStr = "failed" :=
  ⟨rfl, rfl⟩

/-- **C1, amended.**  The stall comparison in routes.py line 532 is against
`sanitized_query` — the *original* query, which the loop never updates — not
against `currentQuery`: (1) whenever the repair call returns the original
query or an empty string, the loop ends right there, with that one further
attempt recorded and the session still invalid; (2) since the repair call is
always handed the original query, a Translator that echoes its input ends
the session FAILED with exactly one recorded attempt and `currentQuery`
still the original query. -/
theorem claim_C1_amended :
    (∀ (fix : Nat → String → String → Feedback → FixResult)
       (validate : Nat → String → Outcome) (question sanitized : String)
       (fuel rc : Nat) (st : SessSt),
      st.is_valid = false →
      ((fix (rc + 1) question sanitized
          { original_query := sanitized, error := st.error_message,
            error_details := st.error_details,
            previous_attempts := st.previous_attempts }).query = sanitized ∨
       (fix (rc + 1) question sanitized
          { original_query := sanitized, error := st.error_message,
            error_details := st.error_details,
            previous_attempts := st.previous_attempts }).query = "") →
      runLoop fix validate question sanitized (fuel + 1) rc st =
        (loopBody fix validate question sanitized (rc + 1) st).1 ∧
      ((loopBody fix validate question sanitized (rc + 1) st).1.previous_attempts).length
        = st.previous_attempts.length + 1 ∧
      (loopBody fix validate question sanitized (rc + 1) st).1.is_valid = false) ∧
    (∀ (expl : String) (validate : Nat → String → Outcome)
       (question sanitized : String) (out0 : Outcome),
      out0.valid = false →
      (runSession (echoFix expl) validate question sanitized
          out0).previous_attempts.length = 1 ∧
      (runSession (echoFix expl) validate question sanitized out0).statusStr =
        "failed" ∧
      (runSession (echoFix expl) validate question sanitized out0).currentQuery =
        sanitized) := by
  constructor
  · intro fix validate question sanitized fuel rc st hv hstall
    have hs := loopBody_stall fix validate question sanitized (rc + 1) st hstall
    refine ⟨?_, loopBody_attempts fix validate question sanitized (rc + 1) st, ?_⟩
    · rw [runLoop]
      rw [if_neg (by simp [hv])]
      rw [if_neg (by simp [hs.1])]
    · rw [hs.2.1]
      exact hv
  · intro expl validate question sanitized out0 h0
    have hstall : (echoFix expl 1 question sanitized
        { original_query := sanitized, error := out0.msg,
          error_details := out0.det, previous_attempts := [] }).query = sanitized ∨
        (echoFix expl 1 question sanitized
        { original_query := sanitized, error := out0.msg,
          error_details := out0.det, previous_attempts := [] }).query = "" :=
      Or.inl rfl
    unfold runSession
    dsimp only
    rw [if_pos (by simp [h0])]
    rw [show maxAttempts = 4 + 1 from rfl]
    rw [runLoop]
    rw [if_neg (by simp [h0])]
    have hs := loopBody_stall (echoFix expl) validate question sanitized 1
      { is_valid := out0.valid, error_message := out0.msg,
        error_details := out0.det, currentQuery := sanitized,
        attemptsShown := 1,
        statusStr := if out0.valid then "valid" else "invalid",
        previous_attempts := [], result_query := sanitized,
        validation_fixed := false } hstall
    rw [if_neg (by simp [hs.1])]
    refine ⟨?_, ?_, ?_⟩
    · rw [finalize_attempts]
      simpa using hs.2.2.2
    · exact finalize_status_failed _ (by rw [hs.2.1]; exact h0)
    · rw [finalize_currentQuery]
      exact hs.2.2.1

/-- **C1, witness** for the amended theorem, at concrete inputs. -/
theorem claim_C1_amended_witness :
    (runLoop (echoFix "e") cexValBad "q" "Q0" (4 + 1) 0 stInvalid =
      (loopBody (echoFix "e") cexValBad "q" "Q0" 1 stInvalid).1) ∧
    (runSession (echoFix "e") cexValBad "q" "Q0" cexOut0).previous_attempts.length
      = 1 ∧
    (runSession (echoFix "e") cexValBad "q" "Q0" cexOut0).statusStr = "failed" := by
  have h := claim_C1_amended
  exact ⟨(h.1 (echoFix "e") cexValBad "q" "Q0" 4 0 stInvalid rfl (Or.inl rfl)).1,
    (h.2 "e" cexValBad "q" "Q0" cexOut0 rfl).1,
    (h.2 "e" cexValBad "q" "Q0" cexOut0 rfl).2.1⟩

/-! ## Claim C2 — bounded attempts -/

/-- **C2, counterexample.**  The claim says the attempt count reaches
`maxAttempts` only when the session ends FAILED by exhaustion.  With a
repair oracle producing a fresh candidate each round and a validator that
accepts the fifth candidate, the session records exactly `maxAttempts`
attempts and ends `valid`. -/
theorem claim_C2_counterexample :
    ((runSession cexFix2 cexVal2 "q" "Q0" cexOut0).previous_attempts.length
      = maxAttempts) ∧
    (runSession cexFix2 cexVal2 "q" "Q0" cexOut0).statusStr = "valid" ∧
    (runSession cexFix2 cexVal2 "q" "Q0" cexOut0).is_valid = true :=
  ⟨rfl, rfl, rfl⟩

/-- **C2, amended.**  For every session — whatever the repair and validation
oracles do — the number of recorded repair attempts never exceeds
`maxAttempts` (5); but the count can equal `maxAttempts` also when the
session does not fail (for instance when the fifth attempt validates). -/
theorem claim_C2_amended (fix : Nat → String → String → Feedback → FixResult)
    (validate : Nat → String → Outcome) (question sanitized : String)
    (out0 : Outcome) :
    ((runSession fix validate question sanitized out0).previous_attempts).length ≤
      maxAttempts := by
  unfold runSession
  rw [finalize_attempts]
  split
  · have := runLoop_attempts_le fix validate question sanitized maxAttempts 0
      { is_valid := out0.valid, error_message := out0.msg,
        error_details := out0.det, currentQuery := sanitized,
        attemptsShown := 1,
        statusStr := if out0.valid then "valid" else "invalid",
        previous_attempts := [], result_query := sanitized,
        validation_fixed := false }
    simpa using this
  · simp

/-! ## Claim C3 — the `currentQuery` invariant -/

/-- **C3, counterexample.**  The claim says `currentQuery` always equals the
candidate of the last recorded attempt.  With a repair oracle that produces
`Q2` on the first call and an empty string on the second, the final
(stalled) attempt is recorded with candidate `""` while `currentQuery`
stays `Q2`. -/
theorem claim_C3_counterexample :
    ((runSession cexFix3 cexValBad "q" "Q0" cexOut0).previous_attempts.getLast?.map
        (fun a => a.query) = some "") ∧
    (runSession cexFix3 cexValBad "q" "Q0" cexOut0).currentQuery = "Q2" :=
  ⟨rfl, rfl⟩

/-- **C3, amended.**  For every session, `currentQuery` equals the candidate
of the last recorded attempt *that the route actually validated* (non-empty
and different from the original query), or the original query when no such
attempt exists; a final stalled attempt is recorded without updating
`currentQuery`. -/
theorem claim_C3_amended (fix : Nat → String → String → Feedback → FixResult)
    (validate : Nat → String → Outcome) (question sanitized : String)
    (out0 : Outcome) :
    (runSession fix validate question sanitized out0).currentQuery =
      lastValidatedCandidate sanitized
        (runSession fix validate question sanitized out0).previous_attempts := by
  unfold runSession
  rw [finalize_attempts, finalize_currentQuery]
  split
  · exact runLoop_invariant fix validate question sanitized maxAttempts 0 _
      (by simp [lastValidatedCandidate])
  · simp [lastValidatedCandidate]

/-! ## Claim C4 — rule-based repair at most once per session -/

/-- **C4.**  The spec's intended behaviour is that rule-based rewriting runs
at most once per session.  In the code, the base provider's
`fix_invalid_query` re-runs `suggest_fixes` on *every* loop iteration —
always on the original query, which the loop never updates.  At the failing
input `SELECT YEAR(createTime) FROM files` with an always-rejecting
validator, the rule branch fires (the rewriter changes the query), and all
five recorded attempts carry the rule-rewritten candidate: rule-based
repair ran on all five iterations, not at most once. -/
theorem claim_C4_rule_rerun :
    ruleBranchFired "SELECT YEAR(createTime) FROM files" none = true ∧
    ((runSession c4Fix cexValBad "q" "SELECT YEAR(createTime) FROM files"
        cexOut0).previous_attempts.map (fun a => a.query) =
      List.replicate 5 "SELECT SUBSTRING(createTime, 1, 4) FROM files") ∧
    (runSession c4Fix cexValBad "q" "SELECT YEAR(createTime) FROM files"
        cexOut0).statusStr = "failed" := by
  refine ⟨by decide, by decide, by decide⟩

/-! ## Claim C5 — idempotence of rule rewriting -/

theorem all_takeWhile (p : Char → Bool) : ∀ l : Str, (l.takeWhile p).all p
  | [] => rfl
  | c :: l => by
    rw [List.takeWhile]
    cases h : p c with
    | false => rfl
    | true => simpa [h] using all_takeWhile p l

theorem dropWhile_append_all (p : Char → Bool) :
    ∀ l m : Str, l.all p → (l ++ m).dropWhile p = m.dropWhile p
  | [], m, _ => rfl
  | c :: l, m, h => by
    rw [List.all_cons, Bool.and_eq_true] at h
    rw [List.cons_append, List.dropWhile_cons, if_pos h.1]
    exact dropWhile_append_all p l m h.2

theorem takeWhile_append_all (p : Char → Bool) :
    ∀ l m : Str, l.all p → (l ++ m).takeWhile p = l ++ m.takeWhile p
  | [], m, _ => rfl
  | c :: l, m, h => by
    rw [List.all_cons, Bool.and_eq_true] at h
    show ((c :: l) ++ m).takeWhile p = (c :: l) ++ m.takeWhile p
    rw [List.cons_append, List.takeWhile_cons, if_pos h.1,
      takeWhile_append_all p l m h.2, List.cons_append]

theorem dropWhile_cons_neg (p : Char → Bool) (c : Char) (l : Str)
    (h : p c = false) : (c :: l).dropWhile p = c :: l := by
  rw [List.dropWhile_cons, if_neg (by simp [h])]

theorem takeWhile_cons_neg (p : Char → Bool) (c : Char) (l : Str)
    (h : p c = false) : (c :: l).takeWhile p = [] := by
  rw [List.takeWhile_cons, if_neg (by simp [h])]

/-- A comma-free prefix of `X ++ ',' :: Y` is a prefix of `X`. -/
theorem prefix_stop_at_comma :
    ∀ (X : Str) (u Y : Str), u <+: (X ++ ',' :: Y) → ',' ∉ u → u <+: X := by
  intro X
  induction X with
  | nil =>
    intro u Y hu hc
    cases u with
    | nil => exact List.nil_prefix
    | cons c u =>
      rcases hu with ⟨k, hk⟩
      simp only [List.nil_append, List.cons_append, List.cons.injEq] at hk
      exact absurd (hk.1 ▸ List.mem_cons_self c u) hc
  | cons a X ih =>
    intro u Y hu hc
    cases u with
    | nil => exact List.nil_prefix
    | cons c u =>
      rcases hu with ⟨k, hk⟩
      simp only [List.cons_append, List.cons.injEq] at hk
      have h2 : u <+: X :=
        ih u Y ⟨k, hk.2⟩ (fun hm => hc (List.mem_cons_of_mem c hm))
      rcases h2 with ⟨t, ht⟩
      exact ⟨t, by rw [List.cons_append, ht, hk.1]⟩

/-! ## C5 lemmas: character-class facts -/

theorem space_not_word {c : Char} (h : isSpaceC c = true) : isWordC c = false := by
  simp only [isSpaceC, Bool.or_eq_true, decide_eq_true_eq] at h
  rcases h with ((((h | h) | h) | h) | h) | h <;> subst h <;> decide

theorem word_not_space {c : Char} (h : isWordC c = true) : isSpaceC c = false := by
  cases hs : isSpaceC c with
  | false => rfl
  | true => exact absurd h (by simp [space_not_word hs])

/-! ## C5 lemmas: decomposition and completeness of the anchored matchers -/

theorem all_head {p : Char → Bool} {c : Char} {l : Str}
    (h : (c :: l).all p = true) : p c = true := by
  rw [List.all_cons, Bool.and_eq_true] at h; exact h.1

theorem all_tail {p : Char → Bool} {c : Char} {l : Str}
    (h : (c :: l).all p = true) : l.all p = true := by
  rw [List.all_cons, Bool.and_eq_true] at h; exact h.2

theorem stripKw_decomp :
    ∀ {kw s t : Str}, stripKw kw s = some t →
      ∃ k2, s = k2 ++ t ∧ k2.map charUp = kw := by
  intro kw
  induction kw with
  | nil =>
    intro s t h
    rw [stripKw] at h
    exact ⟨[], by simpa using h, rfl⟩
  | cons k kw ih =>
    intro s t h
    cases s with
    | nil => exact absurd h (by rw [stripKw]; simp)
    | cons c s =>
      rw [stripKw] at h
      split at h
      next hck =>
        rcases ih h with ⟨k2, hs, hk2⟩
        exact ⟨c :: k2, by rw [List.cons_append, hs],
          by rw [List.map_cons, hk2, hck]⟩
      next => exact absurd h (by simp)

theorem stripKw_complete :
    ∀ (k2 : Str) {kw : Str}, k2.map charUp = kw →
      ∀ t, stripKw kw (k2 ++ t) = some t := by
  intro k2
  induction k2 with
  | nil =>
    intro kw hk t
    rw [← hk]
    rfl
  | cons c k2 ih =>
    intro kw hk t
    rw [← hk, List.map_cons, List.cons_append, stripKw, if_pos rfl]
    exact ih rfl t

/-- The take/drop facts about the `\s*\)` tail following the capture. -/
theorem tail_scan (sp3 v : Str) (h3 : sp3.all isSpaceC) :
    (sp3 ++ ')' :: v).takeWhile isWordC = [] ∧
    (sp3 ++ ')' :: v).dropWhile isWordC = sp3 ++ ')' :: v ∧
    (sp3 ++ ')' :: v).dropWhile isSpaceC = ')' :: v := by
  refine ⟨?_, ?_, ?_⟩
  · cases sp3 with
    | nil => exact takeWhile_cons_neg _ _ _ (by decide)
    | cons b sp3 =>
      rw [List.cons_append]
      exact takeWhile_cons_neg _ _ _ (space_not_word (all_head h3))
  · cases sp3 with
    | nil => exact dropWhile_cons_neg _ _ _ (by decide)
    | cons b sp3 =>
      rw [List.cons_append]
      exact dropWhile_cons_neg _ _ _ (space_not_word (all_head h3))
  · rw [dropWhile_append_all _ _ _ h3]
    exact dropWhile_cons_neg _ _ _ (by decide)

theorem parenTail_decomp :
    ∀ {t w rest : Str}, matchParenTail t = some (w, rest) →
      ∃ sp1 sp2 sp3, t = sp1 ++ '(' :: (sp2 ++ (w ++ (sp3 ++ ')' :: rest))) ∧
        sp1.all isSpaceC ∧ sp2.all isSpaceC ∧ sp3.all isSpaceC ∧
        w ≠ [] ∧ w.all isWordC := by
  intro t w rest h
  unfold matchParenTail at h
  split at h
  next s2 hd =>
    dsimp only at h
    split at h
    next => exact absurd h (by simp)
    next hw =>
      split at h
      next rest2 hd4 =>
        rcases Prod.mk.injEq _ _ _ _ ▸ Option.some.inj h with ⟨hw2, hr2⟩
        subst hw2
        subst hr2
        refine ⟨t.takeWhile isSpaceC, s2.takeWhile isSpaceC,
          (s2.dropWhile isSpaceC).dropWhile isWordC |>.takeWhile isSpaceC,
          ?_, all_takeWhile _ _, all_takeWhile _ _, all_takeWhile _ _,
          by simpa using hw, all_takeWhile _ _⟩
        conv_lhs => rw [← List.takeWhile_append_dropWhile (p := isSpaceC) (l := t)]
        rw [hd]
        congr 1
        conv_lhs => rw [← List.takeWhile_append_dropWhile (p := isSpaceC) (l := s2)]
        congr 1
        conv_lhs =>
          rw [← List.takeWhile_append_dropWhile (p := isWordC)
            (l := s2.dropWhile isSpaceC)]
        congr 1
        conv_lhs =>
          rw [← List.takeWhile_append_dropWhile (p := isSpaceC)
            (l := (s2.dropWhile isSpaceC).dropWhile isWordC)]
        rw [hd4]
      next => exact absurd h (by simp)
  next => exact absurd h (by simp)

theorem parenTail_complete (sp1 sp2 sp3 w : Str) (h1 : sp1.all isSpaceC)
    (h2 : sp2.all isSpaceC) (h3 : sp3.all isSpaceC) (hw : w.all isWordC)
    (hne : w ≠ []) (v : Str) :
    matchParenTail (sp1 ++ '(' :: (sp2 ++ (w ++ (sp3 ++ ')' :: v)))) =
      some (w, v) := by
  have hda : (sp2 ++ (w ++ (sp3 ++ ')' :: v))).dropWhile isSpaceC =
      w ++ (sp3 ++ ')' :: v) := by
    rw [dropWhile_append_all _ _ _ h2]
    cases w with
    | nil => exact absurd rfl hne
    | cons a w =>
      rw [List.cons_append]
      exact dropWhile_cons_neg _ _ _ (word_not_space (all_head hw))
  have htk : (w ++ (sp3 ++ ')' :: v)).takeWhile isWordC = w := by
    rw [takeWhile_append_all _ _ _ hw, (tail_scan sp3 v h3).1, List.append_nil]
  have hdw : (w ++ (sp3 ++ ')' :: v)).dropWhile isWordC = sp3 ++ ')' :: v := by
    rw [dropWhile_append_all _ _ _ hw, (tail_scan sp3 v h3).2.1]
  unfold matchParenTail
  rw [dropWhile_append_all _ _ _ h1, dropWhile_cons_neg _ _ _ (by decide)]
  split
  next s2 heq =>
    obtain rfl : sp2 ++ (w ++ (sp3 ++ ')' :: v)) = s2 :=
      (List.cons.injEq _ _ _ _ ▸ heq).2
    dsimp only
    rw [hda, htk, hdw, (tail_scan sp3 v h3).2.2,
      if_neg (by simpa using hne)]
    split
    next rest heq2 =>
      obtain rfl : v = rest := (List.cons.injEq _ _ _ _ ▸ heq2).2
      rfl
    next hno => exact absurd rfl (hno v)
  next hno => exact absurd rfl (hno _)

theorem match_decomp {kw s0 w rest : Str} (h : tryMatch kw s0 = some (w, rest)) :
    ∃ k2 sp1 sp2 sp3,
      s0 = (k2 ++ (sp1 ++ '(' :: (sp2 ++ (w ++ sp3)))) ++ ')' :: rest ∧
      k2.map charUp = kw ∧ sp1.all isSpaceC ∧ sp2.all isSpaceC ∧
      sp3.all isSpaceC ∧ w ≠ [] ∧ w.all isWordC ∧
      ∀ v, tryMatch kw
        ((k2 ++ (sp1 ++ '(' :: (sp2 ++ (w ++ sp3)))) ++ ')' :: v) =
          some (w, v) := by
  unfold tryMatch at h
  cases hsk : stripKw kw s0 with
  | none => rw [hsk] at h; exact absurd h (by simp)
  | some t =>
    rw [hsk] at h
    rcases stripKw_decomp hsk with ⟨k2, hs0, hk2⟩
    rcases parenTail_decomp (show matchParenTail t = some (w, rest) from by
      simpa using h) with ⟨sp1, sp2, sp3, ht, a1, a2, a3, hne, hwd⟩
    refine ⟨k2, sp1, sp2, sp3, ?_, hk2, a1, a2, a3, hne, hwd, ?_⟩
    · rw [hs0, ht]
      simp [List.append_assoc]
    · intro v
      unfold tryMatch
      have hassoc : (k2 ++ (sp1 ++ '(' :: (sp2 ++ (w ++ sp3)))) ++ ')' :: v =
          k2 ++ (sp1 ++ '(' :: (sp2 ++ (w ++ (sp3 ++ ')' :: v)))) := by
        simp [List.append_assoc]
      rw [hassoc, stripKw_complete k2 hk2]
      simpa using parenTail_complete sp1 sp2 sp3 w a1 a2 a3 hwd hne v

theorem pre_no_comma {k2 sp1 sp2 sp3 w kw : Str} (hk2 : k2.map charUp = kw)
    (hcm : ',' ∉ kw) (a1 : sp1.all isSpaceC) (a2 : sp2.all isSpaceC)
    (a3 : sp3.all isSpaceC) (hwd : w.all isWordC) :
    ',' ∉ (k2 ++ (sp1 ++ '(' :: (sp2 ++ (w ++ sp3)))) := by
  intro hm
  rcases List.mem_append.mp hm with hm | hm
  · have h2 : charUp ',' ∈ k2.map charUp := List.mem_map_of_mem charUp hm
    rw [hk2, show charUp ',' = ',' from by decide] at h2
    exact hcm h2
  · rcases List.mem_append.mp hm with hm | hm
    · exact absurd (List.all_eq_true.mp a1 _ hm) (by decide)
    · rcases List.mem_cons.mp hm with hm | hm
      · exact absurd hm (by decide)
      · rcases List.mem_append.mp hm with hm | hm
        · exact absurd (List.all_eq_true.mp a2 _ hm) (by decide)
        · rcases List.mem_append.mp hm with hm | hm
          · exact absurd (List.all_eq_true.mp hwd _ hm) (by decide)
          · exact absurd (List.all_eq_true.mp a3 _ hm) (by decide)

/-- A `kwParen` match cannot start inside a run of word characters that is
followed by a comma before any parenthesis: the consumed region would have
to contain `(` yet stay left of the comma. -/
theorem no_match_in_words {kw : Str} (hcm : ',' ∉ kw) (ww Z : Str)
    (hww : ww.all isWordC) : tryMatch kw (ww ++ ',' :: Z) = none := by
  cases h : tryMatch kw (ww ++ ',' :: Z) with
  | none => rfl
  | some p =>
    obtain ⟨w2, rest2⟩ := p
    rcases match_decomp h with ⟨k2, sp1, sp2, sp3, hs0, hk2, a1, a2, a3, hne,
      hwd, htr⟩
    set pre := k2 ++ (sp1 ++ '(' :: (sp2 ++ (w2 ++ sp3))) with hpre_def
    have hpre : (pre ++ [')']) <+: (ww ++ ',' :: Z) :=
      ⟨rest2, by rw [hs0]; simp [List.append_assoc]⟩
    have hnc : ',' ∉ pre ++ [')'] := by
      intro hm
      rcases List.mem_append.mp hm with hm | hm
      · exact pre_no_comma hk2 hcm a1 a2 a3 hwd hm
      · exact absurd (List.mem_singleton.mp hm) (by decide)
    have hX : (pre ++ [')']) <+: ww := prefix_stop_at_comma ww _ Z hpre hnc
    have hparen : '(' ∈ pre ++ [')'] := by
      apply List.mem_append.mpr
      left
      apply List.mem_append.mpr
      right
      apply List.mem_append.mpr
      right
      exact List.mem_cons_self _ _
    exact absurd (List.all_eq_true.mp hww _ (hX.subset hparen)) (by decide)

theorem head_mismatch {kw : Str} {k : Char} {kt : Str} (hk : kw = k :: kt)
    {c : Char} (hc : charUp c ≠ k) (X : Str) : tryMatch kw (c :: X) = none := by
  unfold tryMatch
  rw [hk, stripKw, if_neg hc]
  rfl

theorem head_no_match {kw : Str} (hkw : kw ∈ KWS) {c : Char}
    (hc : c ∈ REPLCHARS) (X : Str) : tryMatch kw (c :: X) = none := by
  rcases (show kw = ("YEAR").toList ∨ kw = ("MONTH").toList ∨
      kw = ("DAY").toList from by simpa [KWS] using hkw) with rfl | rfl | rfl
  · refine head_mismatch (show ("YEAR").toList = 'Y' :: ("EAR").toList from rfl)
      ?_ X
    have h2 := List.all_eq_true.mp
      (show REPLCHARS.all (fun x => charUp x != 'Y') = true from by decide) c hc
    simpa using h2
  · refine head_mismatch (show ("MONTH").toList = 'M' :: ("ONTH").toList from
      rfl) ?_ X
    have h2 := List.all_eq_true.mp
      (show REPLCHARS.all (fun x => charUp x != 'M') = true from by decide) c hc
    simpa using h2
  · refine head_mismatch (show ("DAY").toList = 'D' :: ("AY").toList from rfl)
      ?_ X
    have h2 := List.all_eq_true.mp
      (show REPLCHARS.all (fun x => charUp x != 'D') = true from by decide) c hc
    simpa using h2

theorem comma_not_in_kws {kw : Str} (hkw : kw ∈ KWS) : ',' ∉ kw := by
  rcases (show kw = ("YEAR").toList ∨ kw = ("MONTH").toList ∨
      kw = ("DAY").toList from by simpa [KWS] using hkw) with rfl | rfl | rfl
  all_goals decide

theorem subCountGo_drop (kw : Str) (d1 d2 : Char) :
    ∀ (k : Nat) (s : Str),
      subCountGo kw d1 d2 k s = subCountGo kw d1 d2 0 (s.drop k)
  | 0, s => by rw [List.drop_zero]
  | k + 1, [] => by
    rw [List.drop_nil]
    rfl
  | k + 1, c :: s => by
    rw [show subCountGo kw d1 d2 (k + 1) (c :: s) = subCountGo kw d1 d2 k s
      from rfl, List.drop_succ_cons]
    exact subCountGo_drop kw d1 d2 k s

theorem subCount_cons_none {kw : Str} {d1 d2 : Char} {c : Char} {s : Str}
    (h : tryMatch kw (c :: s) = none) :
    subCount kw d1 d2 (c :: s) =
      (c :: (subCount kw d1 d2 s).1, (subCount kw d1 d2 s).2) := by
  unfold subCount
  rw [show subCountGo kw d1 d2 0 (c :: s) =
    (match tryMatch kw (c :: s) with
     | some (w, rest) =>
       let p := subCountGo kw d1 d2 ((c :: s).length - rest.length - 1) s
       (replText d1 d2 w ++ p.1, p.2 + 1)
     | none =>
       let p := subCountGo kw d1 d2 0 s
       (c :: p.1, p.2)) from rfl, h]

theorem subCount_cons_some {kw : Str} {d1 d2 : Char} {c : Char} {s w rest : Str}
    (h : tryMatch kw (c :: s) = some (w, rest)) :
    subCount kw d1 d2 (c :: s) =
      (replText d1 d2 w ++ (subCount kw d1 d2 rest).1,
       (subCount kw d1 d2 rest).2 + 1) := by
  rcases match_decomp h with ⟨k2, sp1, sp2, sp3, hs0, _, _, _, _, _, _, _⟩
  have hq : c :: s = (k2 ++ (sp1 ++ '(' :: (sp2 ++ (w ++ sp3))) ++ [')']) ++
      rest := by
    rw [hs0]
    simp [List.append_assoc]
  have hne : k2 ++ (sp1 ++ '(' :: (sp2 ++ (w ++ sp3))) ++ [')'] ≠ [] := by
    simp
  rcases hqt : k2 ++ (sp1 ++ '(' :: (sp2 ++ (w ++ sp3))) ++ [')'] with _ | ⟨a, qt⟩
  · exact absurd hqt hne
  · rw [hqt, List.cons_append, List.cons.injEq] at hq
    obtain ⟨rfl, hs⟩ := hq
    have hlen : (c :: s).length - rest.length - 1 = qt.length := by
      rw [hs]
      simp [List.length_append]
      omega
    unfold subCount
    rw [show subCountGo kw d1 d2 0 (c :: s) =
      (match tryMatch kw (c :: s) with
       | some (w, rest) =>
         let p := subCountGo kw d1 d2 ((c :: s).length - rest.length - 1) s
         (replText d1 d2 w ++ p.1, p.2 + 1)
       | none =>
         let p := subCountGo kw d1 d2 0 s
         (c :: p.1, p.2)) from rfl, h]
    dsimp only
    rw [hlen, subCountGo_drop, hs, List.drop_left]

theorem count_hasMatch (kw : Str) :
    ∀ s : Str, countM kw s = 0 ↔ hasMatch kw s = false := by
  intro s
  induction s with
  | nil => exact ⟨fun _ => rfl, fun _ => rfl⟩
  | cons c s ih =>
    cases h : tryMatch kw (c :: s) with
    | some p =>
      obtain ⟨w, rest⟩ := p
      unfold countM
      rw [subCount_cons_some h]
      dsimp only
      constructor
      · intro h0
        exact absurd h0 (by simp)
      · intro hF
        rw [hasMatch, h] at hF
        simp at hF
    | none =>
      unfold countM
      rw [subCount_cons_none h]
      dsimp only
      rw [hasMatch, h]
      simpa [countM] using ih

theorem hasMatch_append_right {kw : Str} :
    ∀ (x y : Str), hasMatch kw y = true → hasMatch kw (x ++ y) = true
  | [], _, h => h
  | c :: x, y, h => by
    rw [List.cons_append, hasMatch, hasMatch_append_right x y h, Bool.or_true]

theorem hasMatch_suffix_false {kw : Str} {x y : Str}
    (h : hasMatch kw (x ++ y) = false) : hasMatch kw y = false := by
  cases hy : hasMatch kw y with
  | false => rfl
  | true =>
    have h2 := hasMatch_append_right x y hy
    rw [h] at h2
    cases h2

theorem hasMatch_parts {kw : Str} :
    ∀ (x : Str) {c : Char} {y : Str}, (tryMatch kw (c :: y)).isSome →
      hasMatch kw (x ++ c :: y) = true
  | [], c, y, h => by
    rw [List.nil_append, hasMatch, h, Bool.true_or]
  | a :: x, c, y, h => by
    rw [List.cons_append, hasMatch, hasMatch_parts x h, Bool.or_true]

theorem hasMatch_exists {kw : Str} :
    ∀ {s : Str}, hasMatch kw s = true →
      ∃ x c y, s = x ++ c :: y ∧ (tryMatch kw (c :: y)).isSome := by
  intro s
  induction s with
  | nil =>
    intro h
    cases h
  | cons c s ih =>
    intro h
    rw [hasMatch, Bool.or_eq_true] at h
    rcases h with h | h
    · exact ⟨[], c, s, rfl, h⟩
    · rcases ih h with ⟨x, c2, y, hs, h2⟩
      exact ⟨c :: x, c2, y, by rw [hs, List.cons_append], h2⟩

theorem hasMatch_inside {kw u s : Str} (hinf : u <:+: s)
    (h : hasMatch kw u = true) : hasMatch kw s = true := by
  rcases hinf with ⟨a, b, hab⟩
  rcases hasMatch_exists h with ⟨x, c, y, hu, h2⟩
  rcases hsome : tryMatch kw (c :: y) with _ | ⟨w, rest⟩
  · rw [hsome] at h2
    cases h2
  · rcases match_decomp hsome with ⟨k2, sp1, sp2, sp3, hcy, _, _, _, _, _, _,
      htr⟩
    have h3 : (tryMatch kw (c :: (y ++ b))).isSome := by
      have hcyb : c :: (y ++ b) =
          (k2 ++ (sp1 ++ '(' :: (sp2 ++ (w ++ sp3)))) ++ ')' :: (rest ++ b) := by
        rw [show c :: (y ++ b) = (c :: y) ++ b from rfl, hcy]
        simp [List.append_assoc]
      rw [hcyb, htr (rest ++ b)]
      rfl
    have hs2 : s = (a ++ x) ++ c :: (y ++ b) := by
      rw [← hab, hu]
      simp [List.append_assoc]
    rw [hs2]
    exact hasMatch_parts (a ++ x) h3

theorem hasMatch_inside_false {kw u s : Str} (hinf : u <:+: s)
    (h : hasMatch kw s = false) : hasMatch kw u = false := by
  cases hu : hasMatch kw u with
  | false => rfl
  | true =>
    have h2 := hasMatch_inside hinf hu
    rw [h] at h2
    cases h2

theorem subAll_cons_none {kw : Str} {d1 d2 : Char} {c : Char} {s : Str}
    (h : tryMatch kw (c :: s) = none) :
    subAll kw d1 d2 (c :: s) = c :: subAll kw d1 d2 s := by
  unfold subAll
  rw [subCount_cons_none h]

theorem subAll_cons_some {kw : Str} {d1 d2 : Char} {c : Char} {s w rest : Str}
    (h : tryMatch kw (c :: s) = some (w, rest)) :
    subAll kw d1 d2 (c :: s) = replText d1 d2 w ++ subAll kw d1 d2 rest := by
  unfold subAll
  rw [subCount_cons_some h]

/-- A comma-free prefix of the substituted string that ends in `)` is a
prefix of the original string: it can never reach into a replacement
block, whose only `)` lies beyond the comma. -/
theorem pref_pullback (kw : Str) (d1 d2 : Char) :
    ∀ (n : Nat) (s u : Str), s.length ≤ n → u <+: subAll kw d1 d2 s →
      ',' ∉ u → (∃ u0, u = u0 ++ [')']) → u <+: s := by
  intro n
  induction n with
  | zero =>
    intro s u hlen hpre hnc hend
    rcases hend with ⟨u0, rfl⟩
    cases s with
    | nil =>
      have hu : u0 ++ [')'] = [] := List.prefix_nil.mp hpre
      simp at hu
    | cons c s => simp at hlen
  | succ n ih =>
    intro s u hlen hpre hnc hend
    rcases hend with ⟨u0, rfl⟩
    cases s with
    | nil =>
      have hu : u0 ++ [')'] = [] := List.prefix_nil.mp hpre
      simp at hu
    | cons c s =>
      cases htm : tryMatch kw (c :: s) with
      | none =>
        rw [subAll_cons_none htm] at hpre
        cases u0 with
        | nil =>
          rcases hpre with ⟨k, hk⟩
          rw [List.nil_append, List.cons_append, List.cons.injEq] at hk
          rw [List.nil_append, hk.1]
          exact ⟨s, rfl⟩
        | cons a u0 =>
          rcases hpre with ⟨k, hk⟩
          rw [List.cons_append, List.cons_append, List.cons.injEq] at hk
          have h2 : (u0 ++ [')']) <+: subAll kw d1 d2 s := ⟨k, hk.2⟩
          have h3 : (u0 ++ [')']) <+: s :=
            ih s (u0 ++ [')']) (by simpa using hlen) h2
              (fun hm => hnc (List.mem_cons_of_mem a hm)) ⟨u0, rfl⟩
          rcases h3 with ⟨t, ht⟩
          refine ⟨t, ?_⟩
          simp only [List.cons_append, List.append_assoc,
            List.singleton_append] at ht ⊢
          rw [hk.1, ht]
      | some p =>
        obtain ⟨w, rest⟩ := p
        rw [subAll_cons_some htm] at hpre
        rcases match_decomp htm with ⟨k2, sp1, sp2, sp3, _, _, _, _, _, _,
          hwd, _⟩
        have key : replText d1 d2 w ++ subAll kw d1 d2 rest =
            (("SUBSTRING(").toList ++ w) ++ ',' ::
              (' ' :: d1 :: ',' :: ' ' :: d2 :: ')' :: subAll kw d1 d2 rest) := by
          simp [replText, List.append_assoc]
        rw [key] at hpre
        have hX : (u0 ++ [')']) <+: (("SUBSTRING(").toList ++ w) :=
          prefix_stop_at_comma _ _ _ hpre hnc
        have hmem : ')' ∈ ("SUBSTRING(").toList ++ w :=
          hX.subset (List.mem_append.mpr (Or.inr (List.mem_singleton.mpr rfl)))
        rcases List.mem_append.mp hmem with hm | hm
        · exact absurd hm (by decide)
        · exact absurd (List.all_eq_true.mp hwd _ hm) (by decide)

/-- A match found at a passthrough position of the substituted string lifts
back to a match at the same position of the original string. -/
theorem head_lift {kw2 kw : Str} {d1 d2 : Char} (hcm : ',' ∉ kw2) {c : Char}
    {s w ro : Str} (h : tryMatch kw2 (c :: subAll kw d1 d2 s) = some (w, ro)) :
    ∃ ri, tryMatch kw2 (c :: s) = some (w, ri) := by
  rcases match_decomp h with ⟨k2, sp1, sp2, sp3, hs0, hk2, a1, a2, a3, hne,
    hwd, htr⟩
  have hpne : k2 ++ (sp1 ++ '(' :: (sp2 ++ (w ++ sp3))) ≠ [] := by simp
  rcases List.exists_cons_of_ne_nil hpne with ⟨a, pt, hp⟩
  rw [hp, List.cons_append, List.cons.injEq] at hs0
  obtain ⟨rfl, hsub⟩ := hs0
  have hu : (pt ++ [')']) <+: subAll kw d1 d2 s :=
    ⟨ro, by rw [hsub]; simp [List.append_assoc]⟩
  have hnc2 : ',' ∉ pt ++ [')'] := by
    intro hm
    rcases List.mem_append.mp hm with hm | hm
    · refine pre_no_comma hk2 hcm a1 a2 a3 hwd ?_
      rw [hp]
      exact List.mem_cons_of_mem c hm
    · exact absurd (List.mem_singleton.mp hm) (by decide)
  have h3 : (pt ++ [')']) <+: s :=
    pref_pullback kw d1 d2 s.length s (pt ++ [')']) le_rfl hu hnc2 ⟨pt, rfl⟩
  rcases h3 with ⟨ri, hri⟩
  refine ⟨ri, ?_⟩
  have hcs : c :: s = (k2 ++ (sp1 ++ '(' :: (sp2 ++ (w ++ sp3)))) ++ ')' :: ri := by
    rw [hp, List.cons_append, ← hri]
    simp [List.append_assoc]
  rw [hcs]
  exact htr ri

theorem hasMatch_cons_no {kw2 : Str} {c : Char} {t : Str}
    (h : tryMatch kw2 (c :: t) = none) :
    hasMatch kw2 (c :: t) = hasMatch kw2 t := by
  rw [hasMatch, h]
  rfl

theorem hasMatch_chars {kw2 : Str} :
    ∀ (L : List Char), (∀ c ∈ L, ∀ X, tryMatch kw2 (c :: X) = none) →
      ∀ M, hasMatch kw2 (L ++ M) = hasMatch kw2 M
  | [], _, M => by rw [List.nil_append]
  | c :: L, h, M => by
    rw [List.cons_append,
      hasMatch_cons_no (h c (List.mem_cons_self c L) (L ++ M)),
      hasMatch_chars L (fun a ha X => h a (List.mem_cons_of_mem c ha) X) M]

theorem words_step {kw2 : Str} (hcm : ',' ∉ kw2) :
    ∀ (ww : Str), ww.all isWordC → ∀ Z : Str,
      hasMatch kw2 (ww ++ ',' :: Z) = hasMatch kw2 (',' :: Z)
  | [], _, Z => by rw [List.nil_append]
  | a :: ww, hww, Z => by
    rw [List.cons_append,
      hasMatch_cons_no (show tryMatch kw2 (a :: (ww ++ ',' :: Z)) = none from
        no_match_in_words hcm (a :: ww) Z hww),
      words_step hcm ww (all_tail hww) Z]

/-- Prepending one replacement block cannot create a date-keyword match. -/
theorem repl_prepend {kw2 : Str} (hkw2 : kw2 ∈ KWS) {d1 d2 : Char}
    (hd1 : d1 ∈ DIGITS) (hd2 : d2 ∈ DIGITS) {ww : Str} (hww : ww.all isWordC)
    {T : Str} (hT : hasMatch kw2 T = false) :
    hasMatch kw2 (replText d1 d2 ww ++ T) = false := by
  have hcm := comma_not_in_kws hkw2
  have key : replText d1 d2 ww ++ T =
      ("SUBSTRING(").toList ++
        (ww ++ ',' :: ([' ', d1, ',', ' ', d2, ')'] ++ T)) := by
    simp [replText, List.append_assoc]
  have hL1 : ∀ c ∈ ("SUBSTRING(").toList, ∀ X, tryMatch kw2 (c :: X) = none :=
    fun c hc X => head_no_match hkw2
      (List.mem_append.mpr (Or.inl hc)) X
  have hL2 : ∀ c ∈ [',', ' ', d1, ',', ' ', d2, ')'], ∀ X,
      tryMatch kw2 (c :: X) = none := by
    intro c hc X
    have hc2 : c ∈ REPLCHARS := by
      rcases List.mem_cons.mp hc with rfl | hc
      · decide
      rcases List.mem_cons.mp hc with rfl | hc
      · decide
      rcases List.mem_cons.mp hc with rfl | hc
      · exact List.mem_append.mpr (Or.inr (List.mem_append.mpr (Or.inr hd1)))
      rcases List.mem_cons.mp hc with rfl | hc
      · decide
      rcases List.mem_cons.mp hc with rfl | hc
      · decide
      rcases List.mem_cons.mp hc with rfl | hc
      · exact List.mem_append.mpr (Or.inr (List.mem_append.mpr (Or.inr hd2)))
      rcases List.mem_cons.mp hc with rfl | hc
      · decide
      · exact absurd hc (List.not_mem_nil c)
    exact head_no_match hkw2 hc2 X
  rw [key, hasMatch_chars _ hL1, words_step hcm ww hww,
    show (',' :: ([' ', d1, ',', ' ', d2, ')'] ++ T)) =
      [',', ' ', d1, ',', ' ', d2, ')'] ++ T from rfl,
    hasMatch_chars _ hL2]
  exact hT

/-- Applying the substitution for rule `kw` leaves no match of `kw2` when
`kw2` is `kw` itself, and preserves the absence of `kw2`-matches
otherwise. -/
theorem sub_preserves {kw2 : Str} (hkw2 : kw2 ∈ KWS) {d1 d2 : Char}
    (hd1 : d1 ∈ DIGITS) (hd2 : d2 ∈ DIGITS) :
    ∀ (n : Nat) (kw : Str) (s : Str), s.length ≤ n →
      (kw2 = kw ∨ hasMatch kw2 s = false) →
      hasMatch kw2 (subAll kw d1 d2 s) = false := by
  intro n
  induction n with
  | zero =>
    intro kw s hlen _
    cases s with
    | nil => rfl
    | cons c s => simp at hlen
  | succ n ih =>
    intro kw s hlen hh
    cases s with
    | nil => rfl
    | cons c s =>
      cases htm : tryMatch kw (c :: s) with
      | none =>
        rw [subAll_cons_none htm, hasMatch]
        have htail : hasMatch kw2 (subAll kw d1 d2 s) = false := by
          refine ih kw s (by simpa using hlen) ?_
          rcases hh with hh | hh
          · exact Or.inl hh
          · exact Or.inr (hasMatch_suffix_false (x := [c]) hh)
        rw [htail, Bool.or_false]
        cases hhd : tryMatch kw2 (c :: subAll kw d1 d2 s) with
        | none => rfl
        | some p =>
          obtain ⟨w, ro⟩ := p
          rcases head_lift (comma_not_in_kws hkw2) hhd with ⟨ri, hri⟩
          rcases hh with hh | hh
          · rw [hh] at hri
            rw [hri] at htm
            cases htm
          · rw [hasMatch, hri] at hh
            simp at hh
      | some p =>
        obtain ⟨w, rest⟩ := p
        rw [subAll_cons_some htm]
        rcases match_decomp htm with ⟨k2, sp1, sp2, sp3, hs0, _, _, _, _, _,
          hwd, _⟩
        have hrlen : rest.length ≤ n := by
          have := congrArg List.length hs0
          simp [List.length_append, List.length_cons] at this hlen
          omega
        have htail : hasMatch kw2 (subAll kw d1 d2 rest) = false := by
          refine ih kw rest hrlen ?_
          rcases hh with hh | hh
          · exact Or.inl hh
          · refine Or.inr ?_
            have hsplit : c :: s =
                (k2 ++ (sp1 ++ '(' :: (sp2 ++ (w ++ sp3))) ++ [')']) ++ rest := by
              rw [hs0]
              simp [List.append_assoc]
            rw [hsplit] at hh
            exact hasMatch_suffix_false hh
        exact repl_prepend hkw2 hd1 hd2 hwd htail

theorem fixesStep1T_eq (table : List PatKind) (query : Str) :
    fixesStep1T table query = table.foldl fix1Step (query, []) := rfl

theorem fix1Step_fst (x : Str) (cs : List String) (p : PatKind) :
    (fix1Step (x, cs) p).1 = fix1F x p := by
  cases p with
  | kwParen kw d1 d2 =>
    dsimp only [fix1Step, fix1F]
    split
    · rfl
    · rfl
  | kwOpen kw => rfl
  | lit kw => rfl
  | kwOpenKw k1 k2 => rfl

theorem fold1_fst :
    ∀ (table : List PatKind) (x : Str) (cs : List String),
      (table.foldl fix1Step (x, cs)).1 = table.foldl fix1F x
  | [], _, _ => rfl
  | p :: table, x, cs => by
    rw [List.foldl_cons, List.foldl_cons,
      show fix1Step (x, cs) p = ((fix1Step (x, cs) p).1, (fix1Step (x, cs) p).2)
        from rfl,
      fold1_fst table _ _, fix1Step_fst]

theorem fix1Step_snd_grows (x : Str) (cs : List String) (p : PatKind) :
    cs <+: (fix1Step (x, cs) p).2 := by
  cases p with
  | kwParen kw d1 d2 =>
    dsimp only [fix1Step]
    split
    · exact List.prefix_append cs _
    · exact List.prefix_rfl
  | kwOpen kw => exact List.prefix_rfl
  | lit kw => exact List.prefix_rfl
  | kwOpenKw k1 k2 => exact List.prefix_rfl

theorem fold1_snd_grows :
    ∀ (table : List PatKind) (x : Str) (cs : List String),
      cs <+: (table.foldl fix1Step (x, cs)).2
  | [], _, _ => List.prefix_rfl
  | p :: table, x, cs => by
    rw [List.foldl_cons,
      show fix1Step (x, cs) p = ((fix1Step (x, cs) p).1, (fix1Step (x, cs) p).2)
        from rfl]
    exact (fix1Step_snd_grows x cs p).trans (fold1_snd_grows table _ _)

theorem fold1_nil_facts :
    ∀ (table : List PatKind) (x : Str) (cs : List String),
      (table.foldl fix1Step (x, cs)).2 = [] →
        (table.foldl fix1Step (x, cs)).1 = x ∧
          ∀ kw d1 d2, PatKind.kwParen kw d1 d2 ∈ table → countM kw x = 0 := by
  intro table
  induction table with
  | nil =>
    intro x cs _
    exact ⟨rfl, fun kw d1 d2 hm => absurd hm (List.not_mem_nil _)⟩
  | cons p table ih =>
    intro x cs hnil
    rw [List.foldl_cons] at hnil ⊢
    cases p with
    | kwParen kw d1 d2 =>
      by_cases hg : 0 < countM kw x
      · exfalso
        have hstep : fix1Step (x, cs) (.kwParen kw d1 d2) =
            (subAll kw d1 d2 x, cs ++ ["Replaced " ++ toString (countM kw x) ++
              " instances of " ++ patName (.kwParen kw d1 d2) ++ " with " ++
              replName (.kwParen kw d1 d2)]) := by
          dsimp only [fix1Step]
          rw [if_pos hg]
        rw [hstep] at hnil
        have hpre := fold1_snd_grows table (subAll kw d1 d2 x)
          (cs ++ ["Replaced " ++ toString (countM kw x) ++ " instances of " ++
            patName (.kwParen kw d1 d2) ++ " with " ++
            replName (.kwParen kw d1 d2)])
        rw [hnil] at hpre
        have := List.prefix_nil.mp hpre
        simp at this
      · have hstep : fix1Step (x, cs) (.kwParen kw d1 d2) = (x, cs) := by
          dsimp only [fix1Step]
          rw [if_neg hg]
        rw [hstep] at hnil ⊢
        rcases ih x cs hnil with ⟨h1, h2⟩
        refine ⟨h1, ?_⟩
        intro kw' d1' d2' hm
        rcases List.mem_cons.mp hm with hm | hm
        · obtain ⟨rfl, -, -⟩ := PatKind.kwParen.inj hm
          omega
        · exact h2 kw' d1' d2' hm
    | kwOpen kw =>
      rcases ih x cs hnil with ⟨h1, h2⟩
      refine ⟨h1, ?_⟩
      intro kw' d1' d2' hm
      rcases List.mem_cons.mp hm with hm | hm
      · exact absurd hm (by simp)
      · exact h2 kw' d1' d2' hm
    | lit kw =>
      rcases ih x cs hnil with ⟨h1, h2⟩
      refine ⟨h1, ?_⟩
      intro kw' d1' d2' hm
      rcases List.mem_cons.mp hm with hm | hm
      · exact absurd hm (by simp)
      · exact h2 kw' d1' d2' hm
    | kwOpenKw k1 k2 =>
      rcases ih x cs hnil with ⟨h1, h2⟩
      refine ⟨h1, ?_⟩
      intro kw' d1' d2' hm
      rcases List.mem_cons.mp hm with hm | hm
      · exact absurd hm (by simp)
      · exact h2 kw' d1' d2' hm

theorem fold1_inert :
    ∀ (table : List PatKind) (x : Str) (cs : List String),
      (∀ kw d1 d2, PatKind.kwParen kw d1 d2 ∈ table → countM kw x = 0) →
        table.foldl fix1Step (x, cs) = (x, cs) := by
  intro table
  induction table with
  | nil => intro x cs _; rfl
  | cons p table ih =>
    intro x cs h
    rw [List.foldl_cons]
    cases p with
    | kwParen kw d1 d2 =>
      have hstep : fix1Step (x, cs) (.kwParen kw d1 d2) = (x, cs) := by
        dsimp only [fix1Step]
        rw [if_neg (by rw [h kw d1 d2 (List.mem_cons_self _ _)]; omega)]
      rw [hstep]
      exact ih x cs (fun kw' d1' d2' hm => h kw' d1' d2' (List.mem_cons_of_mem _ hm))
    | kwOpen kw =>
      exact ih x cs (fun kw' d1' d2' hm => h kw' d1' d2' (List.mem_cons_of_mem _ hm))
    | lit kw =>
      exact ih x cs (fun kw' d1' d2' hm => h kw' d1' d2' (List.mem_cons_of_mem _ hm))
    | kwOpenKw k1 k2 =>
      exact ih x cs (fun kw' d1' d2' hm => h kw' d1' d2' (List.mem_cons_of_mem _ hm))

theorem fixesStep2T_none {table : List PatKind} {fixed1 : Str}
    {cs : List String} (h : searchGroupBy fixed1 = none) :
    fixesStep2T table fixed1 cs = (fixed1, cs) := by
  unfold fixesStep2T
  rw [h]

theorem fixesStep2T_gb {table : List PatKind} {fixed1 : Str} {cs : List String}
    {sect colsRaw : Str} (h : searchGroupBy fixed1 = some (sect, colsRaw)) :
    fixesStep2T table fixed1 cs =
      table.foldl (fix2Step sect (stripS colsRaw)) (fixed1, cs) := by
  unfold fixesStep2T
  rw [h]
  rfl

theorem fold2_inert (sect cols : Str) :
    ∀ (table : List PatKind) (acc : Str × List String),
      (∀ kw d1 d2, PatKind.kwParen kw d1 d2 ∈ table →
        patHasMatch (PatKind.kwParen kw d1 d2) cols = false) →
      table.foldl (fix2Step sect cols) acc = acc := by
  intro table
  induction table with
  | nil => intro acc _; rfl
  | cons p table ih =>
    intro acc h
    rw [List.foldl_cons]
    cases p with
    | kwParen kw d1 d2 =>
      have hstep : fix2Step sect cols acc (.kwParen kw d1 d2) = acc := by
        dsimp only [fix2Step]
        rw [if_neg (by rw [h kw d1 d2 (List.mem_cons_self _ _)]; simp)]
      rw [hstep]
      exact ih acc (fun kw' d1' d2' hm => h kw' d1' d2' (List.mem_cons_of_mem _ hm))
    | kwOpen kw =>
      exact ih acc (fun kw' d1' d2' hm => h kw' d1' d2' (List.mem_cons_of_mem _ hm))
    | lit kw =>
      exact ih acc (fun kw' d1' d2' hm => h kw' d1' d2' (List.mem_cons_of_mem _ hm))
    | kwOpenKw k1 k2 =>
      exact ih acc (fun kw' d1' d2' hm => h kw' d1' d2' (List.mem_cons_of_mem _ hm))

theorem patHasMatch_kwParen {kw : Str} (hk : kw ≠ []) (d1 d2 : Char) :
    ∀ s : Str, patHasMatch (PatKind.kwParen kw d1 d2) s = hasMatch kw s := by
  intro s
  induction s with
  | nil =>
    cases kw with
    | nil => exact absurd rfl hk
    | cons k kt => rfl
  | cons c s ih =>
    rw [patHasMatch, hasMatch, ih]
    rfl

theorem dropWhile_suffix (p : Char → Bool) (l : Str) : l.dropWhile p <:+ l :=
  ⟨l.takeWhile p, List.takeWhile_append_dropWhile p l⟩

theorem stripKw_suffix {kw s t : Str} (h : stripKw kw s = some t) : t <:+ s := by
  rcases stripKw_decomp h with ⟨k2, rfl, _⟩
  exact List.suffix_append k2 t

theorem matchGroupByHead_suffix {s rest : Str}
    (h : matchGroupByHead s = some rest) : rest <:+ s := by
  unfold matchGroupByHead at h
  cases h1 : stripKw ("GROUP").toList s with
  | none => rw [h1] at h; cases h
  | some r1 =>
    rw [h1] at h
    cases r1 with
    | nil => cases h
    | cons c t =>
      dsimp only at h
      split at h
      · cases h2 : stripKw ("BY").toList (t.dropWhile isSpaceC) with
        | none => rw [h2] at h; cases h
        | some r3 =>
          rw [h2] at h
          cases r3 with
          | nil => cases h
          | cons c2 t2 =>
            dsimp only at h
            split at h
            · have hrest : rest = t2.dropWhile isSpaceC :=
                (Option.some.inj h).symm
              subst hrest
              have hs1 : (c2 :: t2) <:+ t.dropWhile isSpaceC :=
                stripKw_suffix h2
              have hs2 : (c :: t) <:+ s := stripKw_suffix h1
              refine ((dropWhile_suffix isSpaceC t2).trans
                (⟨[c2], rfl⟩ : t2 <:+ c2 :: t2)).trans
                ((hs1.trans ((dropWhile_suffix isSpaceC t).trans
                  (⟨[c], rfl⟩ : t <:+ c :: t))).trans hs2)
            · cases h
      · cases h

theorem lazySplit_front :
    ∀ {s cols : Str} {n : Nat}, lazySplit s = some (cols, n) → cols <+: s := by
  intro s
  induction s with
  | nil =>
    intro cols n h
    rw [lazySplit] at h
    cases ht : termMatch [] with
    | none => rw [ht] at h; cases h
    | some m =>
      rw [ht] at h
      have h1 : ([] : Str) = cols := congrArg Prod.fst (Option.some.inj h)
      rw [← h1]
  | cons c t ih =>
    intro cols n h
    rw [lazySplit] at h
    cases ht : termMatch (c :: t) with
    | some m =>
      rw [ht] at h
      have h1 : ([] : Str) = cols := congrArg Prod.fst (Option.some.inj h)
      rw [← h1]
      exact List.nil_prefix
    | none =>
      rw [ht] at h
      cases hl : lazySplit t with
      | none => rw [hl] at h; cases h
      | some p =>
        obtain ⟨cl, m⟩ := p
        rw [hl] at h
        have hco : c :: cl = cols := congrArg Prod.fst (Option.some.inj h)
        rcases ih hl with ⟨k, hk⟩
        exact ⟨k, by rw [← hco, List.cons_append, hk]⟩

theorem searchGroupBy_inside :
    ∀ {s sect cols : Str}, searchGroupBy s = some (sect, cols) → cols <:+: s := by
  intro s
  induction s with
  | nil => intro sect cols h; cases h
  | cons c t ih =>
    intro sect cols h
    rw [searchGroupBy] at h
    cases hh : matchGroupByHead (c :: t) with
    | some rest =>
      rw [hh] at h
      dsimp only at h
      cases hl : lazySplit rest with
      | none => rw [hl] at h; cases h
      | some p =>
        obtain ⟨cols0, termLen⟩ := p
        rw [hl] at h
        dsimp only at h
        have hcols : cols0 = cols := congrArg Prod.snd (Option.some.inj h)
        rw [← hcols]
        exact (lazySplit_front hl).isInfix.trans
          (matchGroupByHead_suffix hh).isInfix
    | none =>
      rw [hh] at h
      dsimp only at h
      rcases ih h with ⟨a, b, hab⟩
      exact ⟨c :: a, b, by rw [← hab]; rfl⟩

theorem suffix_reverse_front {w v : Str} (h : w <:+ v.reverse) :
    w.reverse <+: v := by
  rcases h with ⟨t, ht⟩
  refine ⟨t.reverse, ?_⟩
  have h2 := congrArg List.reverse ht
  simpa [List.reverse_append] using h2

theorem stripS_inside (u : Str) : stripS u <:+: u := by
  unfold stripS
  have h1 : (u.dropWhile isSpaceC).reverse.dropWhile isSpaceC <:+
      (u.dropWhile isSpaceC).reverse := dropWhile_suffix _ _
  have h2 : ((u.dropWhile isSpaceC).reverse.dropWhile isSpaceC).reverse <+:
      u.dropWhile isSpaceC := suffix_reverse_front h1
  exact h2.isInfix.trans (dropWhile_suffix isSpaceC u).isInfix

theorem kwParen_mem_facts {kw : Str} {d1 d2 : Char}
    (h : PatKind.kwParen kw d1 d2 ∈ UNSUPPORTED_PATTERNS) :
    kw ∈ KWS ∧ d1 ∈ DIGITS ∧ d2 ∈ DIGITS := by
  simp only [UNSUPPORTED_PATTERNS, List.mem_cons, List.not_mem_nil, or_false,
    PatKind.kwParen.injEq] at h
  rcases h with ⟨rfl, rfl, rfl⟩ | h | h | h | h | h | h
  · exact ⟨by decide, by decide, by decide⟩
  · obtain ⟨rfl, rfl, rfl⟩ := h
    exact ⟨by decide, by decide, by decide⟩
  · obtain ⟨rfl, rfl, rfl⟩ := h
    exact ⟨by decide, by decide, by decide⟩
  · exact absurd h (by simp)
  · exact absurd h (by simp)
  · exact absurd h (by simp)
  · exact absurd h (by simp)

theorem KWS_ne_nil {kw : Str} (h : kw ∈ KWS) : kw ≠ [] := by
  rcases (show kw = ("YEAR").toList ∨ kw = ("MONTH").toList ∨
    kw = ("DAY").toList from by simpa [KWS] using h) with rfl | rfl | rfl <;>
    decide

theorem KWS_mem_table {kw : Str} (h : kw ∈ KWS) :
    ∃ d1 d2, PatKind.kwParen kw d1 d2 ∈ UNSUPPORTED_PATTERNS := by
  rcases (show kw = ("YEAR").toList ∨ kw = ("MONTH").toList ∨
      kw = ("DAY").toList from by simpa [KWS] using h) with rfl | rfl | rfl
  · exact ⟨'1', '4', by decide⟩
  · exact ⟨'6', '2', by decide⟩
  · exact ⟨'9', '2', by decide⟩

theorem fixesStep1T_nomatch {x : Str}
    (h : ∀ kw ∈ KWS, hasMatch kw x = false) :
    fixesStep1T UNSUPPORTED_PATTERNS x = (x, []) := by
  rw [fixesStep1T_eq]
  refine fold1_inert _ _ _ ?_
  intro kw d1 d2 hm
  exact (count_hasMatch kw x).mpr (h kw (kwParen_mem_facts hm).1)

theorem fixesStep2T_nomatch {x : Str} (cs : List String)
    (h : ∀ kw ∈ KWS, hasMatch kw x = false) :
    fixesStep2T UNSUPPORTED_PATTERNS x cs = (x, cs) := by
  cases hgb : searchGroupBy x with
  | none => exact fixesStep2T_none hgb
  | some p =>
    obtain ⟨sect, colsRaw⟩ := p
    rw [fixesStep2T_gb hgb]
    refine fold2_inert sect (stripS colsRaw) _ _ ?_
    intro kw d1 d2 hm
    have hkws := (kwParen_mem_facts hm).1
    rw [patHasMatch_kwParen (KWS_ne_nil hkws) d1 d2]
    exact hasMatch_inside_false
      ((stripS_inside colsRaw).trans (searchGroupBy_inside hgb)) (h kw hkws)

theorem fixesStep1_fst (q : Str) :
    (fixesStep1T UNSUPPORTED_PATTERNS q).1 =
      fix1F (fix1F (fix1F q (PatKind.kwParen ("YEAR").toList '1' '4'))
        (PatKind.kwParen ("MONTH").toList '6' '2'))
        (PatKind.kwParen ("DAY").toList '9' '2') := by
  rw [fixesStep1T_eq, fold1_fst]
  rfl

theorem fix1F_self {kw : Str} (hkw : kw ∈ KWS) {d1 d2 : Char}
    (h1 : d1 ∈ DIGITS) (h2 : d2 ∈ DIGITS) (x : Str) :
    hasMatch kw (fix1F x (PatKind.kwParen kw d1 d2)) = false := by
  dsimp only [fix1F]
  split
  · exact sub_preserves hkw h1 h2 x.length kw x le_rfl (Or.inl rfl)
  next hg => exact (count_hasMatch kw x).mp (by omega)

theorem fix1F_pres {kw2 : Str} (hkw2 : kw2 ∈ KWS) {kw : Str} {d1 d2 : Char}
    (h1 : d1 ∈ DIGITS) (h2 : d2 ∈ DIGITS) {x : Str}
    (hx : hasMatch kw2 x = false) :
    hasMatch kw2 (fix1F x (PatKind.kwParen kw d1 d2)) = false := by
  dsimp only [fix1F]
  split
  · exact sub_preserves hkw2 h1 h2 x.length kw x le_rfl (Or.inr hx)
  · exact hx

theorem main_A (q : Str) :
    ∀ kw ∈ KWS,
      hasMatch kw ((fixesStep1T UNSUPPORTED_PATTERNS q).1) = false := by
  intro kw hkw
  rw [fixesStep1_fst]
  rcases (show kw = ("YEAR").toList ∨ kw = ("MONTH").toList ∨
      kw = ("DAY").toList from by simpa [KWS] using hkw) with rfl | rfl | rfl
  · exact fix1F_pres (by decide) (by decide) (by decide)
      (fix1F_pres (by decide) (by decide) (by decide)
        (fix1F_self (by decide) (by decide) (by decide) q))
  · exact fix1F_pres (by decide) (by decide) (by decide)
      (fix1F_self (by decide) (by decide) (by decide) _)
  · exact fix1F_self (by decide) (by decide) (by decide) _

theorem fixesStep3_nil {ed : ErrDet} {cs : List String}
    (h : (fixesStep3 ed cs).isEmpty = true) : cs = [] := by
  cases ed with
  | none => simpa using h
  | some params =>
    unfold fixesStep3 at h
    dsimp only at h
    split at h
    · simp at h
    · simpa using h

/-- A query with no match of any of the three date-function patterns is a
fixed point of the rewriter when no error details are supplied. -/
theorem suggestFixes_nomatch_inert {x : Str}
    (h : ∀ kw ∈ KWS, hasMatch kw x = false) :
    suggestFixes x none = (x, []) := by
  unfold suggestFixes suggestFixesT
  rw [fixesStep1T_nomatch h]
  dsimp only
  rw [fixesStep2T_nomatch [] h]
  rfl

/-- The query returned by the rewriter never contains a match of any of the
three date-function patterns. -/
theorem suggestFixes_fst_nomatch (q : Str) (ed : ErrDet) :
    ∀ kw ∈ KWS, hasMatch kw ((suggestFixes q ed).1) = false := by
  intro kw hkw
  unfold suggestFixes suggestFixesT
  dsimp only
  rw [fixesStep2T_nomatch (fixesStep1T UNSUPPORTED_PATTERNS q).2 (main_A q)]
  split
  next hemp =>
    have hnil : (fixesStep1T UNSUPPORTED_PATTERNS q).2 = [] :=
      fixesStep3_nil hemp
    rcases fold1_nil_facts UNSUPPORTED_PATTERNS q []
      (by rw [← fixesStep1T_eq]; exact hnil) with ⟨-, h2⟩
    rcases KWS_mem_table hkw with ⟨d1, d2, hmem⟩
    exact (count_hasMatch kw q).mp (h2 kw d1 d2 hmem)
  next =>
    exact main_A q kw hkw

/-- **C5.**  Idempotence of rule rewriting (`AQLValidator.suggest_fixes`,
aql_validator.py lines 108–163): for every query `q` and error details,
re-running the rewriter on the query component of its own output returns
that query unchanged together with an empty list of change descriptions
(Python: the "No automatic fixes could be applied" return). -/
theorem claim_C5_idempotent (q : Str) (ed : ErrDet) :
    suggestFixes (suggestFixes q ed).1 none = ((suggestFixes q ed).1, []) :=
  suggestFixes_nomatch_inert (suggestFixes_fst_nomatch q ed)

/-! ## Claim C6 — transport-error asymmetry -/

/-- **C6, counterexample.**  The claim says a transport error on the very
first validate call propagates to the caller as a hard failure instead of
entering the repair loop.  With a transport that raises on every validation
call, the pipeline still returns a session (no propagation), and that
session went through the repair loop: five recorded attempts, final status
`failed`. -/
theorem claim_C6_counterexample :
    (validate_query (transportErr 0 "Q0")).valid = false ∧
    ((route_pipeline (Except.ok
        { query := "Q0", explanation := "e", understanding := "u" }) transportErr
        cexFix1 "q").toOption.map
      (fun st => (st.previous_attempts.length, st.statusStr))) =
      some (5, "failed") :=
  ⟨rfl, rfl⟩

/-- **C6, amended.**  A transport error from the Validator is converted
locally into an ordinary invalid outcome by `validate_query` on *every*
call — including the very first, which therefore enters the repair loop
instead of failing hard: (1) the conversion; (2) once translation has
succeeded the pipeline always returns a session, whatever the validation
transport does; (3) only an exception in the translate call itself
propagates to the route's top-level handler; (4) within the loop each
(possibly transport-converted) validation consumes exactly one recorded
attempt. -/
theorem claim_C6_amended :
    (∀ e : String, validate_query (Except.error e) =
      { valid := false
        msg := some ("Error during query validation: " ++ e)
        det := none }) ∧
    (∀ (tr : TransResult) (transport : Nat → String → Except String RespData)
       (fix : Nat → String → String → Feedback → FixResult) (question : String),
      route_pipeline (Except.ok tr) transport fix question =
        Except.ok (runSession fix (fun rc q => validate_query (transport rc q))
          question tr.query (validate_query (transport 0 tr.query)))) ∧
    (∀ (e : String) (transport : Nat → String → Except String RespData)
       (fix : Nat → String → String → Feedback → FixResult) (question : String),
      route_pipeline (Except.error e) transport fix question = Except.error e) ∧
    (∀ (fix : Nat → String → String → Feedback → FixResult)
       (validate : Nat → String → Outcome) (question sanitized : String)
       (rc : Nat) (st : SessSt),
      ((loopBody fix validate question sanitized rc st).1.previous_attempts).length =
        st.previous_attempts.length + 1) :=
  ⟨fun _ => rfl, fun _ _ _ _ => rfl, fun _ _ _ _ => rfl, loopBody_attempts⟩

/-! ## Claim C7 — last-statement-only result-size limiting -/

/-- With at least two statements, the joined query contains a semicolon. -/
theorem semi_mem_intercalate (ss : List Str) (h : 2 ≤ ss.length) :
    (List.intercalate [';'] ss).contains ';' = true := by
  match ss, h with
  | a :: b :: t, _ =>
    have : List.intercalate [';'] (a :: b :: t) =
        a ++ ';' :: List.intercalate [';'] (b :: t) := by
      simp [List.intercalate, List.intersperse]
    rw [this]
    simp

/-- **C7.**  For a multi-statement query (at least two `;`-separated
statements, none containing `;`) with no size-limiting clause
(case-insensitive check on the whole query) and at least one non-blank
statement, `execute_query`'s LIMIT step appends ` LIMIT 25000` exactly to
the last non-blank statement, leaving all other statements — including
trailing empty ones — in place; concretely,
`SELECT 1; SELECT 2;` becomes `SELECT 1; SELECT 2 LIMIT 25000;`. -/
theorem claim_C7_last_statement_limit (ss : List Str) (k : Nat)
    (hL : containsSub ("LIMIT").toList (upperS (List.intercalate [';'] ss)) = false)
    (hsemi : ∀ s ∈ ss, ';' ∉ s)
    (hk : lastNonBlankIdx ss = some k)
    (hlen : 2 ≤ ss.length) :
    addLimit (List.intercalate [';'] ss) =
      List.intercalate [';'] (modifyIdx (· ++ limitClause) k ss) ∧
    addLimit ("SELECT 1; SELECT 2;").toList =
      ("SELECT 1; SELECT 2 LIMIT 25000;").toList := by
  constructor
  · unfold addLimit
    rw [hL]
    simp only [Bool.false_eq_true, if_false]
    rw [semi_mem_intercalate ss hlen]
    simp only [if_true]
    rw [List.splitOn_intercalate ss ';' hsemi
      (by intro hne; subst hne; simp at hlen)]
    rw [hk]
  · decide

/-- **C7, witness**: the theorem applied to the split of
`SELECT 1; SELECT 2;`. -/
theorem claim_C7_witness :
    addLimit (List.intercalate [';']
        [("SELECT 1").toList, (" SELECT 2").toList, ([] : Str)]) =
      List.intercalate [';'] (modifyIdx (· ++ limitClause) 1
        [("SELECT 1").toList, (" SELECT 2").toList, ([] : Str)]) ∧
    addLimit ("SELECT 1; SELECT 2;").toList =
      ("SELECT 1; SELECT 2 LIMIT 25000;").toList :=
  claim_C7_last_statement_limit
    [("SELECT 1").toList, (" SELECT 2").toList, ([] : Str)] 1
    (by decide) (by decide) (by decide) (by decide)

/-! ## Claim C8 — symbolic date substitution -/

theorem replaceAllGo_drop (pat rep : Str) :
    ∀ (s : Str) (k : Nat), replaceAllGo pat rep k s = replaceAllGo pat rep 0 (s.drop k) := by
  intro s
  induction s with
  | nil => intro k; cases k <;> rfl
  | cons c t ih =>
    intro k
    cases k with
    | zero => rfl
    | succ j =>
      rw [show replaceAllGo pat rep (j + 1) (c :: t) = replaceAllGo pat rep j t from rfl]
      rw [ih j]
      rfl

theorem containsSub_false_replaceAll (pat rep : Str) :
    ∀ (u : Str), containsSub pat u = false → replaceAll pat rep u = u := by
  intro u
  induction u with
  | nil => intro h; rfl
  | cons c t ih =>
    intro h
    simp only [containsSub, Bool.or_eq_false_iff] at h
    show replaceAllGo pat rep 0 (c :: t) = c :: t
    rw [show replaceAllGo pat rep 0 (c :: t) =
      if pat.isPrefixOf (c :: t) && !pat.isEmpty then
        rep ++ replaceAllGo pat rep (pat.length - 1) t
      else c :: replaceAllGo pat rep 0 t from rfl]
    rw [if_neg (by simp [h.1])]
    rw [show replaceAllGo pat rep 0 t = replaceAll pat rep t from rfl, ih h.2]

theorem containsSub_clean (pat : Str) (hp : ∃ p', pat = '{' :: p') :
    ∀ (u : Str), '{' ∉ u → containsSub pat u = false := by
  obtain ⟨p', hp⟩ := hp
  subst hp
  intro u
  induction u with
  | nil => intro _; rfl
  | cons c t ih =>
    intro h
    have hc : c ≠ '{' := fun he => h (he ▸ List.mem_cons_self c t)
    simp only [containsSub, Bool.or_eq_false_iff]
    constructor
    · simp [List.isPrefixOf, Ne.symm hc]
    · exact ih (fun hm => h (List.mem_cons_of_mem c hm))

theorem containsSub_here (pat : Str) :
    ∀ (x y : Str), containsSub pat (x ++ pat ++ y) = true := by
  intro x
  induction x with
  | nil =>
    intro y
    cases hp : pat with
    | nil =>
      subst hp
      cases y <;> simp [containsSub, List.isPrefixOf]
    | cons p ps =>
      have : pat.isPrefixOf (pat ++ y) = true := by
        rw [List.isPrefixOf_iff_prefix]
        exact List.prefix_append pat y
      rw [hp] at this
      simp [containsSub, this]
  | cons c t ih =>
    intro y
    simp only [containsSub, Bool.or_eq_true]
    right
    exact ih y

theorem zip_any_ne_not_isPrefixOf :
    ∀ (u w y : Str), ((u.zip w).any (fun c => c.1 ≠ c.2)) = true →
      u.isPrefixOf (w ++ y) = false := by
  intro u
  induction u with
  | nil => intro w y h; simp at h
  | cons a u' ih =>
    intro w y h
    cases w with
    | nil => simp at h
    | cons b w' =>
      simp only [List.zip_cons_cons, List.any_cons, Bool.or_eq_true] at h
      rcases h with h | h
      · simp only [List.cons_append, List.isPrefixOf]
        have : (a == b) = false := by
          simp only [decide_eq_true_eq] at h
          simp [h]
        simp [this]
      · simp only [List.cons_append, List.isPrefixOf]
        have := ih w' y h
        simp only [List.append_eq]
        simp [this]

theorem containsSub_other_var :
    ∀ (v' v a b : Str), (∃ t', v' = '{' :: '{' :: t') →
      (∃ c t, v = '{' :: '{' :: c :: t ∧ c ≠ '{' ∧ '{' ∉ (c :: t)) →
      '{' ∉ a → '{' ∉ b →
      ((v'.zip v).any (fun c => c.1 ≠ c.2)) = true →
      containsSub v' (a ++ v ++ b) = false := by
  intro v' v a b hv' hv
  induction a with
  | nil =>
    intro _ hb hzip
    obtain ⟨t', hv'⟩ := hv'
    obtain ⟨c, t, hveq, hc, hct⟩ := hv
    subst hveq
    simp only [List.nil_append]
    -- position 0: mismatch; position 1: second char of suffix is c ≠ the
    -- pattern head; positions ≥ 2: a brace-free string.
    have h0 : v'.isPrefixOf (('{' :: '{' :: c :: t) ++ b) = false :=
      zip_any_ne_not_isPrefixOf v' _ b hzip
    have h1 : v'.isPrefixOf ('{' :: c :: t ++ b) = false := by
      subst hv'
      simp only [List.isPrefixOf, List.cons_append]
      have : ('{' == c) = false := by simp [Ne.symm hc]
      simp [this]
    have h2 : containsSub v' (c :: t ++ b) = false := by
      refine containsSub_clean v' ⟨_, hv'⟩ _ ?_
      intro hm
      rcases (by simpa using hm : '{' = c ∨ '{' ∈ t ∨ '{' ∈ b) with hm | hm | hm
      · exact hc hm.symm
      · exact hct (List.mem_cons_of_mem c hm)
      · exact hb hm
    simp only [containsSub, List.cons_append, Bool.or_eq_false_iff]
    have h2' : List.isPrefixOf v' (c :: (t ++ b)) = false ∧
        containsSub v' (t ++ b) = false := by
      have := h2
      simp only [containsSub, List.cons_append, Bool.or_eq_false_iff] at this
      exact this
    exact ⟨by simpa using h0, by simpa using h1, h2'⟩
  | cons x a' ih =>
    intro ha hb hzip
    obtain ⟨t', hv'e⟩ := hv'
    have hx : x ≠ '{' := fun he => ha (he ▸ List.mem_cons_self x a')
    simp only [containsSub, List.cons_append, Bool.or_eq_false_iff]
    constructor
    · subst hv'e
      simp only [List.isPrefixOf]
      have : ('{' == x) = false := by simp [Ne.symm hx]
      simp [this]
    · exact ih (fun hm => ha (List.mem_cons_of_mem x hm)) hb hzip

theorem replaceAll_clean_front (pat rep : Str) (hp : ∃ p', pat = '{' :: p') :
    ∀ (a t : Str), '{' ∉ a → replaceAll pat rep (a ++ t) = a ++ replaceAll pat rep t := by
  obtain ⟨p', hpe⟩ := hp
  intro a
  induction a with
  | nil => intro t _; rfl
  | cons c a' ih =>
    intro t ha
    have hc : c ≠ '{' := fun he => ha (he ▸ List.mem_cons_self c a')
    show replaceAllGo pat rep 0 (c :: (a' ++ t)) = c :: (a' ++ replaceAll pat rep t)
    rw [show replaceAllGo pat rep 0 (c :: (a' ++ t)) =
      if pat.isPrefixOf (c :: (a' ++ t)) && !pat.isEmpty then
        rep ++ replaceAllGo pat rep (pat.length - 1) (a' ++ t)
      else c :: replaceAllGo pat rep 0 (a' ++ t) from rfl]
    rw [if_neg (by subst hpe; simp [List.isPrefixOf, Ne.symm hc])]
    rw [show replaceAllGo pat rep 0 (a' ++ t) = replaceAll pat rep (a' ++ t) from rfl]
    rw [ih t (fun hm => ha (List.mem_cons_of_mem c hm))]

theorem replaceAll_at_head (pat rep : Str) (hne : pat ≠ []) :
    ∀ (t : Str), replaceAll pat rep (pat ++ t) = rep ++ replaceAll pat rep t := by
  intro t
  match pat, hne with
  | p0 :: pat', _ =>
    show replaceAllGo (p0 :: pat') rep 0 (p0 :: (pat' ++ t)) = _
    rw [show replaceAllGo (p0 :: pat') rep 0 (p0 :: (pat' ++ t)) =
      if (p0 :: pat').isPrefixOf ((p0 :: pat') ++ t) && !(p0 :: pat').isEmpty then
        rep ++ replaceAllGo (p0 :: pat') rep ((p0 :: pat').length - 1) (pat' ++ t)
      else p0 :: replaceAllGo (p0 :: pat') rep 0 (pat' ++ t) from rfl]
    rw [if_pos (by
      rw [Bool.and_eq_true]
      refine ⟨?_, by simp⟩
      rw [List.isPrefixOf_iff_prefix]
      exact List.prefix_append _ t)]
    rw [replaceAllGo_drop]
    rw [show (p0 :: pat').length - 1 = pat'.length from by simp]
    rw [List.drop_left]
    rfl

theorem replaceAll_var_occurrence (v rep a b : Str)
    (hv : ∃ c t, v = '{' :: '{' :: c :: t ∧ c ≠ '{' ∧ '{' ∉ (c :: t))
    (ha : '{' ∉ a) (hb : '{' ∉ b) :
    replaceAll v rep (a ++ v ++ b) = a ++ rep ++ b := by
  obtain ⟨c, t, hveq, hc, hct⟩ := hv
  rw [List.append_assoc]
  rw [replaceAll_clean_front v rep ⟨_, by rw [hveq]⟩ a (v ++ b) ha]
  rw [replaceAll_at_head v rep (by rw [hveq]; simp) b]
  rw [containsSub_false_replaceAll v rep b
    (containsSub_clean v ⟨_, by rw [hveq]⟩ b hb)]
  simp

theorem filter_eq_single {«α» : Type} (p : «α» → Bool) (key : «α» → Str) :
    ∀ (l : List «α») (x : «α»), x ∈ l → (l.map key).Nodup → p x = true →
      (∀ y ∈ l, key y ≠ key x → p y = false) → l.filter p = [x] := by
  intro l
  induction l with
  | nil => intro x hx; cases hx
  | cons z t ih =>
    intro x hx hnd hpx hother
    rw [List.map_cons, List.nodup_cons] at hnd
    have hnd' : (t.map key).Nodup := hnd.2
    have hzkey : key z ∉ t.map key := hnd.1
    rcases List.mem_cons.mp hx with hzx | hxt
    · subst hzx
      rw [List.filter_cons, if_pos (by simp [hpx])]
      have hrest : t.filter p = [] := by
        rw [List.filter_eq_nil_iff]
        intro y hy
        have hkey : key y ≠ key x := by
          intro he
          exact hzkey (he ▸ List.mem_map_of_mem key hy)
        simp [hother y (List.mem_cons_of_mem x hy) hkey]
      rw [hrest]
    · have hkz : key z ≠ key x := by
        intro he
        exact hzkey (he ▸ List.mem_map_of_mem key hxt)
      rw [List.filter_cons, if_neg (by simp [hother z (List.mem_cons_self z t) hkz])]
      exact ih x hxt hnd' hpx (fun y hy => hother y (List.mem_cons_of_mem z hy))

theorem findBraced_clean : ∀ (u : Str), '{' ∉ u → findBraced u = [] := by
  intro u
  induction u with
  | nil => intro _; rfl
  | cons c t ih =>
    intro h
    have hc : c ≠ '{' := fun he => h (he ▸ List.mem_cons_self c t)
    show findBracedGo 0 (c :: t) = []
    rw [show findBracedGo 0 (c :: t) =
      if c = '{' && t.head? = some '{' then
        match scanToClose t.tail with
        | some (inner, rest') =>
          ('{' :: '{' :: inner ++ ['}', '}']) ::
            findBracedGo ((c :: t).length - rest'.length - 1) t
        | none => findBracedGo 0 t
      else findBracedGo 0 t from rfl]
    rw [if_neg (by simp [hc])]
    exact ih (fun hm => h (List.mem_cons_of_mem c hm))

theorem findBracedGo_drop :
    ∀ (s : Str) (k : Nat), findBracedGo k s = findBracedGo 0 (s.drop k) := by
  intro s
  induction s with
  | nil => intro k; cases k <;> rfl
  | cons c t ih =>
    intro k
    cases k with
    | zero => rfl
    | succ j =>
      rw [show findBracedGo (j + 1) (c :: t) = findBracedGo j t from rfl]
      rw [ih j]
      rfl

theorem scanToClose_append (t : Str) (ht1 : '}' ∉ t) (ht2 : '\n' ∉ t) :
    ∀ (rest : Str), scanToClose (t ++ '}' :: '}' :: rest) = some (t, rest) := by
  induction t with
  | nil =>
    intro rest
    rw [List.nil_append]
    rw [show scanToClose ('}' :: '}' :: rest) =
      if '}' = '}' && ('}' :: rest).head? = some '}' then some (([] : Str), ('}' :: rest).tail)
      else if '}' = '\n' then none
      else (scanToClose ('}' :: rest)).map (fun p => ('}' :: p.1, p.2)) from rfl]
    rw [if_pos (by simp)]
    rfl
  | cons c t' ih =>
    intro rest
    have hc1 : c ≠ '}' := fun he => ht1 (he ▸ List.mem_cons_self c t')
    have hc2 : c ≠ '\n' := fun he => ht2 (he ▸ List.mem_cons_self c t')
    show scanToClose (c :: (t' ++ '}' :: '}' :: rest)) = _
    rw [show scanToClose (c :: (t' ++ '}' :: '}' :: rest)) =
      if c = '}' && (t' ++ '}' :: '}' :: rest).head? = some '}' then
        some (([] : Str), (t' ++ '}' :: '}' :: rest).tail)
      else if c = '\n' then none
      else (scanToClose (t' ++ '}' :: '}' :: rest)).map (fun p => (c :: p.1, p.2))
      from rfl]
    rw [if_neg (by simp [hc1])]
    rw [if_neg hc2]
    rw [ih (fun hm => ht1 (List.mem_cons_of_mem c hm))
        (fun hm => ht2 (List.mem_cons_of_mem c hm)) rest]
    rfl

theorem varShapeOK_spec (u : Str) (h : varShapeOK u = true) :
    ∃ c t, u = '{' :: '{' :: c :: t ∧ c ≠ '{' ∧ '{' ∉ (c :: t) := by
  cases u with
  | nil => simp [varShapeOK] at h
  | cons c1 u1 =>
    cases u1 with
    | nil => simp [varShapeOK] at h
    | cons c2 u2 =>
      cases u2 with
      | nil => simp [varShapeOK] at h
      | cons c t =>
        simp only [varShapeOK, Bool.and_eq_true, Bool.not_eq_true',
          decide_eq_true_eq, decide_eq_false_iff_not] at h
        obtain ⟨⟨⟨h1, h2⟩, h3⟩, h4⟩ := h
        subst h1
        subst h2
        refine ⟨c, t, rfl, h3, ?_⟩
        intro hm
        have : ((c :: t).contains '{') = true :=
          List.elem_eq_true_of_mem (by simpa using hm)
        rw [this] at h4
        simp at h4

theorem table_shape : ∀ p ∈ DATE_VARIABLES, varShapeOK p.1 = true := by decide

theorem table_nodup : ((DATE_VARIABLES.map (fun p => p.1)).Nodup) := by decide

theorem table_pairwise : ∀ p ∈ DATE_VARIABLES, ∀ q ∈ DATE_VARIABLES,
    p.1 ≠ q.1 → ((p.1.zip q.1).any (fun c => c.1 ≠ c.2)) = true := by decide

theorem table_dates_clean :
    ∀ p ∈ DATE_VARIABLES, '{' ∉ dateStr (now20250110 - p.2) := by decide

theorem preprocess_single_var (ve : Str × Nat) (hve : ve ∈ DATE_VARIABLES)
    (a b : Str) (ha : '{' ∉ a) (hb : '{' ∉ b) :
    preprocess_query now20250110 (a ++ ve.1 ++ b) =
      (a ++ dateStr (now20250110 - ve.2) ++ b, []) := by
  obtain ⟨c, t, hveq, hc, hct⟩ := varShapeOK_spec ve.1 (table_shape ve hve)
  have hq_ne : (a ++ ve.1 ++ b).isEmpty = false := by
    rw [hveq]
    cases a <;> rfl
  have hfilter : DATE_VARIABLES.filter
      (fun w => containsSub w.1 (a ++ ve.1 ++ b)) = [ve] := by
    refine filter_eq_single _ (fun p => p.1) DATE_VARIABLES ve hve table_nodup ?_ ?_
    · exact containsSub_here ve.1 a b
    · intro y hy hne
      obtain ⟨c', t', hy1, _, _⟩ := varShapeOK_spec y.1 (table_shape y hy)
      exact containsSub_other_var y.1 ve.1 a b ⟨_, hy1⟩ ⟨c, t, hveq, hc, hct⟩
        ha hb (table_pairwise y hy ve hve hne)
  unfold preprocess_query
  rw [if_neg (by rw [hq_ne]; simp)]
  dsimp only
  rw [show AQL_DATE_EXPRESSIONS.foldl
      (fun acc w => if containsSub w.1 acc then replaceAll w.1 w.2 acc else acc)
      (a ++ ve.1 ++ b) = a ++ ve.1 ++ b from rfl]
  rw [hfilter]
  rw [show ([ve].foldl
      (fun acc w => replaceAll w.1 (dateStr (now20250110 - w.2)) acc)
      (a ++ ve.1 ++ b)) =
    replaceAll ve.1 (dateStr (now20250110 - ve.2)) (a ++ ve.1 ++ b) from rfl]
  rw [replaceAll_var_occurrence ve.1 _ a b ⟨c, t, hveq, hc, hct⟩ ha hb]
  rw [findBraced_clean _ (by
    intro hm
    rcases List.mem_append.mp hm with hm | hm
    · rcases List.mem_append.mp hm with hm | hm
      · exact ha hm
      · exact table_dates_clean ve hve hm
    · exact hb hm)]

theorem findBraced_token (a t b : Str) (ha : '{' ∉ a) (hb : '{' ∉ b)
    (ht1 : '}' ∉ t) (ht2 : '\n' ∉ t) :
    findBraced (a ++ ('{' :: '{' :: t ++ ['}', '}']) ++ b) =
      ['{' :: '{' :: t ++ ['}', '}']] := by
  induction a with
  | nil =>
    rw [List.nil_append]
    show findBracedGo 0 ('{' :: ('{' :: t ++ ['}', '}']) ++ b) = _
    rw [show findBracedGo 0 ('{' :: ('{' :: t ++ ['}', '}']) ++ b) =
      if ('{' : Char) = '{' && (('{' :: t ++ ['}', '}']) ++ b).head? = some '{' then
        match scanToClose ((('{' :: t ++ ['}', '}']) ++ b).tail) with
        | some (inner, rest') =>
          ('{' :: '{' :: inner ++ ['}', '}']) ::
            findBracedGo (('{' :: ('{' :: t ++ ['}', '}']) ++ b).length - rest'.length - 1)
              (('{' :: t ++ ['}', '}']) ++ b)
        | none => findBracedGo 0 (('{' :: t ++ ['}', '}']) ++ b)
      else findBracedGo 0 (('{' :: t ++ ['}', '}']) ++ b) from rfl]
    rw [if_pos (by simp)]
    have htail : (('{' :: t ++ ['}', '}']) ++ b).tail = t ++ '}' :: '}' :: b := by
      simp
    rw [htail]
    rw [scanToClose_append t ht1 ht2 b]
    dsimp only
    have hlen : ('{' :: ('{' :: t ++ ['}', '}']) ++ b).length - b.length - 1 =
        t.length + 3 := by
      simp
      omega
    rw [hlen]
    rw [findBracedGo_drop]
    have hdrop : (('{' :: t ++ ['}', '}']) ++ b).drop (t.length + 3) = b := by
      rw [show ('{' :: t ++ ['}', '}']) ++ b = ('{' :: t ++ ['}', '}']) ++ b from rfl]
      rw [show t.length + 3 = ('{' :: t ++ ['}', '}']).length from by simp]
      exact List.drop_left _ _
    rw [hdrop]
    rw [show findBracedGo 0 b = findBraced b from rfl, findBraced_clean b hb]
  | cons x a' ih =>
    have hx : x ≠ '{' := fun he => ha (he ▸ List.mem_cons_self x a')
    show findBracedGo 0 (x :: (a' ++ ('{' :: '{' :: t ++ ['}', '}']) ++ b)) = _
    rw [show findBracedGo 0 (x :: (a' ++ ('{' :: '{' :: t ++ ['}', '}']) ++ b)) =
      if x = '{' && ((a' ++ ('{' :: '{' :: t ++ ['}', '}']) ++ b)).head? = some '{' then
        match scanToClose ((a' ++ ('{' :: '{' :: t ++ ['}', '}']) ++ b)).tail with
        | some (inner, rest') =>
          ('{' :: '{' :: inner ++ ['}', '}']) ::
            findBracedGo ((x :: (a' ++ ('{' :: '{' :: t ++ ['}', '}']) ++ b)).length - rest'.length - 1)
              (a' ++ ('{' :: '{' :: t ++ ['}', '}']) ++ b)
        | none => findBracedGo 0 (a' ++ ('{' :: '{' :: t ++ ['}', '}']) ++ b)
      else findBracedGo 0 (a' ++ ('{' :: '{' :: t ++ ['}', '}']) ++ b) from rfl]
    rw [if_neg (by simp [hx])]
    exact ih (fun hm => ha (List.mem_cons_of_mem x hm))

theorem preprocess_unknown_token (a t b : Str) (ha : '{' ∉ a) (hb : '{' ∉ b)
    (ht3 : '{' ∉ t) (ht1 : '}' ∉ t) (ht2 : '\n' ∉ t)
    (hnone : ∀ ve ∈ DATE_VARIABLES,
      containsSub ve.1 (a ++ ('{' :: '{' :: t ++ ['}', '}']) ++ b) = false) :
    preprocess_query now20250110 (a ++ ('{' :: '{' :: t ++ ['}', '}']) ++ b) =
      (a ++ ('{' :: '{' :: t ++ ['}', '}']) ++ b,
        ['{' :: '{' :: t ++ ['}', '}']]) := by
  have hq_ne : (a ++ ('{' :: '{' :: t ++ ['}', '}']) ++ b).isEmpty = false := by
    cases a <;> rfl
  have hfilter : DATE_VARIABLES.filter
      (fun w => containsSub w.1 (a ++ ('{' :: '{' :: t ++ ['}', '}']) ++ b)) = [] := by
    rw [List.filter_eq_nil_iff]
    intro y hy
    simpa using hnone y hy
  unfold preprocess_query
  rw [if_neg (by rw [hq_ne]; simp)]
  dsimp only
  rw [show AQL_DATE_EXPRESSIONS.foldl
      (fun acc w => if containsSub w.1 acc then replaceAll w.1 w.2 acc else acc)
      (a ++ ('{' :: '{' :: t ++ ['}', '}']) ++ b) =
      a ++ ('{' :: '{' :: t ++ ['}', '}']) ++ b from rfl]
  rw [hfilter]
  rw [List.foldl_nil]
  rw [findBraced_token a t b ha hb ht1 ht2]

/-- **C8.**  With `now = 2025-01-10`: (1) for every entry of
`DATE_VARIABLES` and every surrounding brace-free context, preprocessing
replaces the bracketed token by the ISO-8601 rendering of `now` minus the
entry's day offset, with no warnings; (2) the 30-days-ago token maps to
`2024-12-11`; (3) an unrecognized bracketed token (brace- and newline-free
inner text matching no table entry) is left intact in the output query and
reported only in the returned warning list — `preprocess_query` is total,
so no error is possible. -/
theorem claim_C8_date_substitution :
    (∀ ve ∈ DATE_VARIABLES, ∀ a b : Str, '{' ∉ a → '{' ∉ b →
      preprocess_query now20250110 (a ++ ve.1 ++ b) =
        (a ++ dateStr (now20250110 - ve.2) ++ b, [])) ∧
    ((dv "DATE_MINUS_30_DAYS", 30) ∈ DATE_VARIABLES ∧
      dateStr (now20250110 - 30) = ("2024-12-11").toList) ∧
    (∀ a t b : Str, '{' ∉ a → '{' ∉ b → '{' ∉ t → '}' ∉ t → '\n' ∉ t →
      (∀ ve ∈ DATE_VARIABLES,
        containsSub ve.1 (a ++ ('{' :: '{' :: t ++ ['}', '}']) ++ b) = false) →
      preprocess_query now20250110 (a ++ ('{' :: '{' :: t ++ ['}', '}']) ++ b) =
        (a ++ ('{' :: '{' :: t ++ ['}', '}']) ++ b,
          ['{' :: '{' :: t ++ ['}', '}']])) := by
  refine ⟨?_, ⟨by decide, by decide⟩, ?_⟩
  · intro ve hve a b ha hb
    exact preprocess_single_var ve hve a b ha hb
  · intro a t b ha hb ht3 ht1 ht2 hnone
    exact preprocess_unknown_token a t b ha hb ht3 ht1 ht2 hnone

theorem claim_C8_witness :
    preprocess_query now20250110
        (("WHERE createTime >= '").toList ++ (dv "DATE_MINUS_30_DAYS", 30).1 ++
          ("'").toList) =
      (("WHERE createTime >= '").toList ++
        dateStr (now20250110 - (dv "DATE_MINUS_30_DAYS", 30).2) ++ ("'").toList,
        []) ∧
    preprocess_query now20250110
        (("x = '").toList ++ ('{' :: '{' :: ("UNKNOWN").toList ++ ['}', '}']) ++
          ("'").toList) =
      (("x = '").toList ++ ('{' :: '{' :: ("UNKNOWN").toList ++ ['}', '}']) ++
        ("'").toList,
        ['{' :: '{' :: ("UNKNOWN").toList ++ ['}', '}']]) := by
  constructor
  · exact claim_C8_date_substitution.1 (dv "DATE_MINUS_30_DAYS", 30) (by decide) _ _
      (by decide) (by decide)
  · exact claim_C8_date_substitution.2.2 _ _ _ (by decide) (by decide) (by decide) (by decide)
      (by decide) (by decide)

/-! ## Claim C9 — null-replacement rules -/

/-- A fold whose function ignores the elements a filter would drop can be
computed over the filtered list. -/
theorem foldl_filter_inert {α β : Type} (f : β → α → β) (p : α → Bool)
    (h : ∀ b a, p a = false → f b a = b) :
    ∀ (l : List α) (b : β), l.foldl f b = (l.filter p).foldl f b := by
  intro l
  induction l with
  | nil => intro b; rfl
  | cons a t ih =>
    intro b
    by_cases hp : p a = true
    · simp [List.foldl_cons, List.filter_cons, hp, ih]
    · have hp' : p a = false := by simpa using hp
      simp [List.foldl_cons, List.filter_cons, hp', h b a hp', ih]

/-- Step 1 of the rewriter never looks at null-replacement entries. -/
theorem fixesStep1T_filter (query : Str) :
    fixesStep1T UNSUPPORTED_PATTERNS query =
      fixesStep1T (UNSUPPORTED_PATTERNS.filter PatKind.hasReplacement) query := by
  unfold fixesStep1T
  rw [foldl_filter_inert _ PatKind.hasReplacement]
  intro b a hpa
  cases a with
  | kwParen kw d1 d2 => simp [PatKind.hasReplacement] at hpa
  | kwOpen kw => rfl
  | lit kw => rfl
  | kwOpenKw k1 k2 => rfl

/-- Step 2 of the rewriter never looks at null-replacement entries. -/
theorem fixesStep2T_filter (fixed1 : Str) (changes1 : List String) :
    fixesStep2T UNSUPPORTED_PATTERNS fixed1 changes1 =
      fixesStep2T (UNSUPPORTED_PATTERNS.filter PatKind.hasReplacement) fixed1
        changes1 := by
  unfold fixesStep2T
  cases searchGroupBy fixed1 with
  | none => rfl
  | some sc =>
    dsimp only
    rw [foldl_filter_inert _ PatKind.hasReplacement]
    intro b a hpa
    cases a with
    | kwParen kw d1 d2 => simp [PatKind.hasReplacement] at hpa
    | kwOpen kw => rfl
    | lit kw => rfl
    | kwOpenKw k1 k2 => rfl

/-- **C9, counterexample.**  The claim says a matched null-replacement rule
contributes a diagnostic description to the rewriter's output.  On
`SELECT DATE_ADD(x, 1)` the null rule `DATE_ADD\s*\(` matches, yet
`suggest_fixes` returns the query unchanged with *no* change description at
all (Python's "No automatic fixes could be applied" return). -/
theorem claim_C9_counterexample :
    (PatKind.kwOpen ("DATE_ADD").toList) ∈ UNSUPPORTED_PATTERNS ∧
    (PatKind.kwOpen ("DATE_ADD").toList).hasReplacement = false ∧
    patHasMatch (PatKind.kwOpen ("DATE_ADD").toList)
      ("SELECT DATE_ADD(x, 1)").toList = true ∧
    suggestFixes ("SELECT DATE_ADD(x, 1)").toList none =
      (("SELECT DATE_ADD(x, 1)").toList, []) := by
  refine ⟨by decide, rfl, by decide, rfl⟩

/-- **C9, amended.**  Null-replacement rules are completely inert in the
rewriter: `suggest_fixes` never alters the query by such a rule *and* never
emits a diagnostic for it — its `if replacement:` guards skip null entries
entirely, so the rewriter behaves identically with the null entries removed
from the table.  (The diagnostics for matched null rules are produced by
`validate_query`'s issue detection, not by the rewriter.) -/
theorem claim_C9_amended (query : Str) (ed : ErrDet) :
    suggestFixes query ed =
      suggestFixesT (UNSUPPORTED_PATTERNS.filter PatKind.hasReplacement) query
        ed := by
  unfold suggestFixes suggestFixesT
  dsimp only
  rw [fixesStep1T_filter, fixesStep2T_filter]

/-! ## Claim C10 — the translation-cache backing store is inert -/

/-- **C10.**  For every cache state and key, `get_cached_query_result`
returns `None`, `cache_query_result` returns `True` while recording
nothing, and the cache-consultation step of `translate_to_aql` therefore
always proceeds to a fresh translation. -/
theorem claim_C10_cache_inert (st : CacheState) (key res : String) (e : Nat)
    (fresh : String) :
    get_cached_query_result st key = none ∧
    cache_query_result st key res e = (true, st) ∧
    translate_cache_step st key fresh = fresh :=
  ⟨rfl, rfl, rfl⟩

end AQLStudio

